import Mathlib

/-!
Verification of the `codebuddy_proxy` core (an Anthropic-compatible API
gateway) against its natural-language specification.

The Python sources `key_manager.py`, `quota_manager.py` and
`anthropic_server.py` are shallowly embedded: pure fragments become Lean
functions, the streaming transcoder becomes an explicit state machine over
upstream frames, file persistence becomes an explicit trace of file-system
operations, and fallible code returns `Except`.
-/

namespace CgtoolsWeb

/-! ## String helpers shared by the embeddings

Python `str.startswith` / substring tests are modelled on the character
lists underlying Lean strings.  Python `str.lower()` is modelled
character-wise (all strings the code compares are ASCII or CJK, where the
two agree). -/

/-- Model of Python `s.startswith(pre)`. -/
def strStartsWith (s pre : String) : Bool :=
  pre.toList.isPrefixOf s.toList

/-- Model of Python `needle in haystack` on strings (substring test). -/
def strContainsB (haystack needle : String) : Bool :=
  decide (needle.toList <:+: haystack.toList)

/-- Model of Python `s.lower()` (character-wise; exact on ASCII and CJK). -/
def pyLower (s : String) : String :=
  ⟨s.toList.map Char.toLower⟩

/-- Characters stripped by Python `str.strip()` and friends. -/
def pyWhitespace (c : Char) : Bool :=
  c = ' ' || c = '\t' || c = '\n' || c = '\r' || c = '\x0b' || c = '\x0c'

/-- Model of Python `s.rstrip().endswith(c)` for a single character `c`. -/
def rstripEndsWith (s : String) (c : Char) : Bool :=
  (s.toList.reverse.dropWhile pyWhitespace).head? == some c

/-- Model of Python `s.lstrip().startswith(c)` for a single character `c`. -/
def lstripStartsWith (s : String) (c : Char) : Bool :=
  (s.toList.dropWhile pyWhitespace).head? == some c

/-! ## Credential store (`key_manager.py`) -/

/-- OAuth credential record: the dict `(accessToken, refreshToken, expiresAt)`
managed by `KeyManager`.  `expiresAt = 0` is the sentinel for a static key
("no expiration, externally managed"). -/
structure OAuthKey where
  accessToken : String
  refreshToken : String
  expiresAt : Int
deriving Repr, DecidableEq

/-- Embedding of `KeyManager.set_if_newer` (key_manager.py:300-340).  Input is
the incumbent store content and the candidate key; output is the new store
content and the boolean the method returns (`True` when the store was
updated).  Mirrors the source: absent incumbent is always replaced; a static
incumbent (`expiresAt = 0`) is never replaced; otherwise the candidate wins
iff it is static or expires strictly later. -/
def set_if_newer (incumbent : Option OAuthKey) (key : OAuthKey) :
    Option OAuthKey × Bool :=
  match incumbent with
  | none => (some key, true)
  | some old =>
    if old.expiresAt = 0 then (some old, false)
    else if key.expiresAt = 0 ∨ old.expiresAt < key.expiresAt then (some key, true)
    else (some old, false)

/-- Snapshot of the environment a single iteration of `refresh_loop`
(key_manager.py:587-633) runs in: the key read at the top of the loop,
whether `needs_refresh` reported it due, whether `manager.refresh` returned
success, the key re-read after the attempt (the loop calls `manager.get()`
again), the wall clock in ms, and the jitter drawn from ±30 s. -/
structure RefreshEnv where
  keyBefore : Option OAuthKey
  needsRefresh : Bool
  refreshSuccess : Bool
  keyAfterRefresh : Option OAuthKey
  nowMs : Int
  jitter : Int
deriving Repr

/-- Retry budget of the refresh loop (`max_retries = 5`). -/
def max_retries : Nat := 5

/-- Default refresh buffer (`KeyManager.DEFAULT_BUFFER_MS` = 5 minutes). -/
def default_buffer_ms : Int := 5 * 60 * 1000

/-- Embedding of one iteration of `refresh_loop` (key_manager.py:587-633).
Returns `(new retry count, key cleared this iteration?, sleep in ms)`.
The source increments `retry_count` on a failed attempt and clears the key
only when `retry_count > max_retries`; the sleep is
`max(1000, expiresAt - buffer - now + jitter)` (or 60000 with no key) and is
additionally capped by `min(60000, 1000 * 2 ^ retry_count)` whenever the
retry count is positive. -/
def refresh_loop_iter (bufferMs : Int) (env : RefreshEnv) (retryCount : Nat) :
    Nat × Bool × Int :=
  let attempted := env.keyBefore.isSome && env.needsRefresh
  let rc :=
    if attempted then
      if env.refreshSuccess then (0, false)
      else if retryCount + 1 > max_retries then (0, true)
      else (retryCount + 1, false)
    else (retryCount, false)
  let keyNow := if rc.2 then none else env.keyAfterRefresh
  let sleepBase : Int :=
    match keyNow with
    | some k => max 1000 (k.expiresAt - bufferMs - env.nowMs + env.jitter)
    | none => 60000
  let sleepMs :=
    if 0 < rc.1 then min sleepBase (min 60000 (1000 * (2 : Int) ^ rc.1))
    else sleepBase
  (rc.1, rc.2, sleepMs)

/-- Environment in which a refresh is due and every attempt fails. -/
def failEnv : RefreshEnv :=
  { keyBefore := some ⟨"t", "r", 1⟩
    needsRefresh := true
    refreshSuccess := false
    keyAfterRefresh := some ⟨"t", "r", 1⟩
    nowMs := 0
    jitter := 0 }

/-! ## Quota ledger (`quota_manager.py`) -/

/-- Wall-clock instant at second granularity: days since a (fixed) Monday
plus the second within the day, so `datetime.weekday()` (Monday = 0) becomes
`days % 7` and `now.replace(hour=0, minute=0, second=0, microsecond=0)`
becomes zeroing `secsOfDay`. -/
structure PyDateTime where
  days : Nat
  secsOfDay : Nat
deriving Repr, DecidableEq

/-- Total seconds of an instant (the order `datetime` comparison uses). -/
def PyDateTime.toSecs (t : PyDateTime) : Nat :=
  t.days * 86400 + t.secsOfDay

/-- Embedding of `QuotaManager._get_next_monday_midnight`
(quota_manager.py:80-90): `days_until_monday = (7 - weekday) % 7`, replaced
by 7 when zero, added to today's midnight. -/
def get_next_monday_midnight (now : PyDateTime) : PyDateTime :=
  let w := now.days % 7
  let d0 := (7 - w) % 7
  let d := if d0 = 0 then 7 else d0
  ⟨now.days + d, 0⟩

/-- The `native_api` record of the persisted quota state
(`QuotaManager._get_default_state`), with timestamps typed instead of ISO
strings. -/
structure NativeApiState where
  quota_exhausted : Bool
  exhausted_at : Option PyDateTime
  reset_at : Option PyDateTime
  last_error : Option String
  request_count : Nat
  last_request_at : Option PyDateTime
deriving Repr, DecidableEq

/-- Fresh default quota state (not exhausted, null timestamps, zero count). -/
def default_native_state : NativeApiState :=
  ⟨false, none, none, none, 0, none⟩

/-- File-system effect of a persistence routine. -/
inductive FsOp where
  | writeFile (path : String)
  | rename (src dst : String)
  | chmod600 (path : String)
deriving Repr, DecidableEq

/-- Persistence trace of `QuotaManager._save_state` (quota_manager.py:72-78):
a single direct `open(quota_file, "w")` write of the serialized state — no
temporary file and no rename. -/
def quota_save_trace (quotaFile : String) : List FsOp :=
  [.writeFile quotaFile]

/-- Persistence trace of `KeyManager.save_to_file` (key_manager.py:258-286):
write `config_path + ".tmp"`, atomically `os.replace` it over the target,
then `chmod 0600`. -/
def key_save_trace (configPath : String) : List FsOp :=
  [.writeFile (configPath ++ ".tmp"),
   .rename (configPath ++ ".tmp") configPath,
   .chmod600 configPath]

/-- The trace persists `target` atomically: the target path is never written
directly, and some temporary file distinct from it is written and then
renamed over it. -/
def usesTempRename (target : String) (tr : List FsOp) : Prop :=
  (∀ op ∈ tr, op ≠ FsOp.writeFile target) ∧
  ∃ tmp, tmp ≠ target ∧ FsOp.writeFile tmp ∈ tr ∧ FsOp.rename tmp target ∈ tr

/-- Embedding of `QuotaManager.mark_native_exhausted`
(quota_manager.py:136-155).  The source calls `datetime.now()` twice (once
for `exhausted_at`, once inside `_get_next_monday_midnight`), hence the two
instants `now` and `nowReset`.  Returns the new state and the persistence
trace of the `_save_state` it performs. -/
def mark_native_exhausted (quotaFile : String) (st : NativeApiState)
    (now nowReset : PyDateTime) (msg : Option String) :
    NativeApiState × List FsOp :=
  ({ st with
      quota_exhausted := true
      exhausted_at := some now
      reset_at := some (get_next_monday_midnight nowReset)
      last_error := msg },
   quota_save_trace quotaFile)

/-- Embedding of `QuotaManager.record_request` (quota_manager.py:157-162). -/
def record_request (quotaFile : String) (st : NativeApiState)
    (now : PyDateTime) : NativeApiState × List FsOp :=
  ({ st with
      request_count := st.request_count + 1
      last_request_at := some now },
   quota_save_trace quotaFile)

/-- Embedding of `QuotaManager._reset_native` (quota_manager.py:111-121),
also the body of the manual `reset_native`. -/
def reset_native (quotaFile : String) : NativeApiState × List FsOp :=
  (default_native_state, quota_save_trace quotaFile)

/-- Embedding of `QuotaManager._check_auto_reset` (quota_manager.py:92-109):
when exhausted and `now ≥ reset_at`, reset (which persists); otherwise leave
the state alone and write nothing. -/
def check_auto_reset (quotaFile : String) (st : NativeApiState)
    (now : PyDateTime) : NativeApiState × List FsOp :=
  if st.quota_exhausted then
    match st.reset_at with
    | some r => if r.toSecs ≤ now.toSecs then reset_native quotaFile else (st, [])
    | none => (st, [])
  else (st, [])

/-- English quota keywords of `is_quota_exhausted_error`
(quota_manager.py:229-241), in source order. -/
def english_keywords : List String :=
  ["rate limit", "rate_limit", "ratelimit", "quota exceeded", "quota_exceeded",
   "too many requests", "request limit", "usage limit", "daily limit",
   "monthly limit", "weekly limit"]

/-- Chinese quota keywords of `is_quota_exhausted_error`
(quota_manager.py:248-258), in source order. -/
def chinese_keywords : List String :=
  ["额度已用尽", "额度用尽", "本周额度", "本日额度", "本月额度",
   "额度不足", "额度耗尽", "临时提额", "使用详情"]

/-- Embedding of `is_quota_exhausted_error` (quota_manager.py:212-264):
HTTP 429, or an English keyword in the lowercased body, or a Chinese keyword
in the body as-is. -/
def is_quota_exhausted_error (statusCode : Int) (errorBody : String) : Bool :=
  if statusCode = 429 then true
  else if english_keywords.any (fun k => strContainsB (pyLower errorBody) k) then true
  else if chinese_keywords.any (fun k => strContainsB errorBody k) then true
  else false

/-! ## Tool-call id normalisation (`anthropic_server.py`) -/

/-- Lowercase hexadecimal digit (the alphabet of Python `uuid4().hex`). -/
def isLowerHexDigit (c : Char) : Bool :=
  c.isDigit || ('a' ≤ c && c ≤ 'f')

/-- Embedding of `normalize_tool_call_id` (anthropic_server.py:776-790).
`freshHex` stands for the `uuid.uuid4().hex[:24]` the source draws when the
id is missing or empty. -/
def normalize_tool_call_id (freshHex : String) (toolId : String) : String :=
  if toolId = "" then "toolu_" ++ freshHex
  else if strStartsWith toolId "toolu_" then toolId
  else "toolu_" ++ toolId

/-- Embedding of `denormalize_tool_call_id` (anthropic_server.py:793-812):
the identity on both branches ("all providers use toolu_"). -/
def denormalize_tool_call_id (toolId : String) (_provider : String) : String :=
  if toolId = "" then toolId else toolId

/-! ## Quota state file loading (`QuotaManager._load_state`)

The state file content is modelled as a JSON value (or a missing/unreadable/
syntactically-invalid file).  The Python operations `key in state`,
`state[key]` and `state[key] = v` the loader applies to it are modelled
exactly, including the `TypeError` they raise on values of the wrong shape —
`_load_state` catches only `JSONDecodeError` and `IOError`, so those
`TypeError`s escape the constructor. -/

/-- JSON value as produced by `json.load`. -/
inductive Json where
  | null
  | bool (b : Bool)
  | num (n : Int)
  | str (s : String)
  | arr (xs : List Json)
  | obj (kvs : List (String × Json))

/-- Model of Python `element == k` for a string `k` (only strings compare
equal to a string). -/
def Json.eqStr : Json → String → Bool
  | .str s, k => s = k
  | _, _ => false

/-- Model of Python `k in j` (`__contains__`): key test on dicts, membership
on lists, substring test on strings, `TypeError` otherwise. -/
def pyContains (j : Json) (k : String) : Except String Bool :=
  match j with
  | .obj kvs => .ok (kvs.any (fun p => p.1 == k))
  | .arr xs => .ok (xs.any (fun x => x.eqStr k))
  | .str s => .ok (strContainsB s k)
  | _ => .error "TypeError: argument of this type is not iterable"

/-- First-match lookup in a JSON object (Python dicts have unique keys). -/
def objLookup (kvs : List (String × Json)) (k : String) : Option Json :=
  (kvs.find? (fun p => p.1 == k)).map (fun p => p.2)

/-- Model of Python dict assignment `d[k] = v`: replace the value at an
existing key, else append the pair. -/
def objSet (kvs : List (String × Json)) (k : String) (v : Json) :
    List (String × Json) :=
  if kvs.any (fun p => p.1 == k) then
    kvs.map (fun p => if p.1 == k then (k, v) else p)
  else kvs ++ [(k, v)]

/-- Model of Python `j[k]` for a string key: dict lookup (`KeyError` when
missing), `TypeError` on any non-dict. -/
def pyGetItem (j : Json) (k : String) : Except String Json :=
  match j with
  | .obj kvs =>
    match objLookup kvs k with
    | some v => .ok v
    | none => .error "KeyError"
  | _ => .error "TypeError: value is not subscriptable by a string"

/-- Model of Python `j[k] = v` for a string key. -/
def pySetItem (j : Json) (k : String) (v : Json) : Except String Json :=
  match j with
  | .obj kvs => .ok (.obj (objSet kvs k v))
  | _ => .error "TypeError: value does not support item assignment"

/-- The `native_api` record of `QuotaManager._get_default_state`
(quota_manager.py:36-48), as JSON. -/
def defaultNative : List (String × Json) :=
  [("quota_exhausted", .bool false), ("exhausted_at", .null),
   ("reset_at", .null), ("last_error", .null), ("request_count", .num 0),
   ("last_request_at", .null)]

/-- Full default state of `QuotaManager._get_default_state`, as JSON. -/
def default_state_json : Json :=
  .obj [("native_api", .obj defaultNative), ("version", .num 2)]

/-- Content of the quota state file as seen by `_load_state`. -/
inductive QuotaFileContent where
  | absent
  | unreadable
  | badJson
  | parsed (j : Json)

/-- Embedding of `QuotaManager._load_state` (quota_manager.py:50-70): absent
file, `IOError` and `JSONDecodeError` all yield the default state; a parsed
value is patched field by field (`native_api` installed whole when missing,
otherwise each missing sub-field filled in), with any `TypeError` raised by
those subscript operations escaping as an error. -/
def load_state (f : QuotaFileContent) : Except String Json :=
  match f with
  | .absent => .ok default_state_json
  | .unreadable => .ok default_state_json
  | .badJson => .ok default_state_json
  | .parsed state => do
    let c ← pyContains state "native_api"
    if !c then
      pySetItem state "native_api" (.obj defaultNative)
    else
      let na ← pyGetItem state "native_api"
      let na' ← defaultNative.foldlM (fun acc kv => do
          let has ← pyContains acc kv.1
          if has then pure acc else pySetItem acc kv.1 kv.2) na
      pySetItem state "native_api" na'

/-- Pure form of the sub-field patch loop of `_load_state` when `native_api`
is a dict: append each default pair whose key is absent so far. -/
def mergeNa (navs defaults : List (String × Json)) : List (String × Json) :=
  defaults.foldl
    (fun acc kv => if acc.any (fun p => p.1 == kv.1) then acc else acc ++ [kv])
    navs

/-! ## User-message transcoding (`convert_anthropic_messages`, user branch)

The user branch (anthropic_server.py:567-629) walks the content blocks in
source order, buffering convertible blocks in `pending_user_content` and, on
each `tool_result`, first flushing the buffer as a `user` message and then
emitting a `role: tool` message. -/

/-- Legacy (OpenAI-style) content part of a converted user message. -/
inductive LegacyPart where
  | text (s : String)
  | imageUrl (url : String)
deriving Repr, DecidableEq

/-- Content of a legacy `user` message: a bare string (emitted for a single
text part) or an array of typed parts. -/
inductive LegacyContent where
  | str (s : String)
  | parts (ps : List LegacyPart)
deriving Repr, DecidableEq

/-- A message appended by the user branch of `convert_anthropic_messages`. -/
inductive LegacyMsg where
  | user (content : LegacyContent)
  | tool (toolCallId : String) (content : String)
deriving Repr, DecidableEq

/-- Content of a `tool_result` block.  The embedding covers the string form
and lists of text blocks (each carrying its `text` value); `texts []` models
the empty list, whose source fallback `str(tool_content)` prints `"[]"`. -/
inductive ToolResultContent where
  | str (s : String)
  | texts (ts : List String)
deriving Repr, DecidableEq

/-- Embedding of anthropic_server.py:615-620: list content is joined with
newlines (falling back to `str([])` for the empty list); string content is
kept (`str` of a string is itself). -/
def toolResultContentString : ToolResultContent → String
  | .str s => s
  | .texts ts => if ts.isEmpty then "[]" else String.intercalate "\n" ts

/-- A content block of an Anthropic user message, as the user branch
distinguishes them; `other` covers non-dict entries and unhandled `type`s,
which the loop skips.  `image` carries `source.type`, `media_type` (defaulted
to `image/png` upstream), `data` and `url`; `document` carries `source.type`
and `media_type`. -/
inductive UserBlock where
  | text (s : String)
  | image (sourceType mediaType data url : String)
  | document (sourceType mediaType : String)
  | toolResult (toolUseId : String) (content : ToolResultContent)
  | other
deriving Repr, DecidableEq

/-- Embedding of `convert_content_block` (anthropic_server.py:284-336) for
image blocks: base64 sources become data-URI `image_url` parts, url sources
pass the url through, and any other source type falls through to the
unknown-type result, an empty text part. -/
def convert_image_block (sourceType mediaType data url : String) : LegacyPart :=
  if sourceType = "base64" then
    .imageUrl ("data:" ++ mediaType ++ ";base64," ++ data)
  else if sourceType = "url" then
    .imageUrl url
  else
    .text ""

/-- Embedding of the `flush_user_content` closure
(anthropic_server.py:576-585): nothing for an empty buffer, string content
for a single text part, array content otherwise. -/
def flush_user_content (pending : List LegacyPart) : List LegacyMsg :=
  match pending with
  | [] => []
  | [LegacyPart.text s] => [.user (.str s)]
  | ps => [.user (.parts ps)]

/-- One iteration of the user-branch block loop
(anthropic_server.py:587-625): returns the messages emitted by this block
and the new pending buffer. -/
def user_block_step (provider : Option String) (pending : List LegacyPart) :
    UserBlock → List LegacyMsg × List LegacyPart
  | .text s => ([], pending ++ [.text s])
  | .image st mt d u => ([], pending ++ [convert_image_block st mt d u])
  | .document st mt =>
    if st = "base64" then ([], pending ++ [.text ("[Document: " ++ mt ++ "]")])
    else ([], pending)
  | .toolResult tid c =>
    let cid := match provider with
      | some p => denormalize_tool_call_id tid p
      | none => tid
    (flush_user_content pending ++ [.tool cid (toolResultContentString c)], [])
  | .other => ([], pending)

/-- The block loop with an explicit pending buffer, ending in the final
`flush_user_content()` call (anthropic_server.py:628). -/
def convert_user_blocks_aux (provider : Option String)
    (pending : List LegacyPart) : List UserBlock → List LegacyMsg
  | [] => flush_user_content pending
  | b :: bs =>
    let st := user_block_step provider pending b
    st.1 ++ convert_user_blocks_aux provider st.2 bs

/-- Embedding of the user-message branch of `convert_anthropic_messages`
for list content: process the blocks in source order starting from an empty
pending buffer. -/
def convert_user_blocks (provider : Option String)
    (blocks : List UserBlock) : List LegacyMsg :=
  convert_user_blocks_aux provider [] blocks

/-- Parts a tool_result-free block list accumulates into the pending
buffer: text blocks as text parts, images through `convert_content_block`,
base64 documents as a placeholder text part (other documents and unhandled
blocks contribute nothing). -/
def bufferedParts : List UserBlock → List LegacyPart
  | [] => []
  | .text s :: bs => .text s :: bufferedParts bs
  | .image st mt d u :: bs => convert_image_block st mt d u :: bufferedParts bs
  | .document st mt :: bs =>
    (if st = "base64" then [LegacyPart.text ("[Document: " ++ mt ++ "]")]
     else []) ++ bufferedParts bs
  | .toolResult _ _ :: bs => bufferedParts bs
  | .other :: bs => bufferedParts bs

/-- Whether a block is a `tool_result`. -/
def UserBlock.isToolResult : UserBlock → Bool
  | .toolResult _ _ => true
  | _ => false

/-! ## Streaming response transcoder (`handle_stream_passthrough`)

The handler (anthropic_server.py:1790-2187) reads `data:` frames from the
upstream, emits `message_start`, then per-frame `content_block_start` /
`content_block_delta` events for thinking, text and tool-call blocks, and on
end of stream the `content_block_stop`s, `message_delta` and `message_stop`.
The embedding consumes a list of already-framed upstream lines (frames whose
JSON fails to parse are skipped, like the source's `except JSONDecodeError:
continue`) and returns the list of emitted events.  It covers runs that the
source processes to completion without a transport error or an exception
escaping a frame (the claims are conditioned on exactly those runs);
payloads used only for logging are elided. -/

/-- The `usage` record extracted from an upstream chunk. -/
structure Usage where
  promptTokens : Nat
  completionTokens : Nat
deriving Repr, DecidableEq

/-- One entry of an upstream `delta.tool_calls` array.  Empty strings model
missing/empty fields (the source tests them with Python truthiness). -/
structure ToolCallDelta where
  index : Nat
  id : String
  name : String
  arguments : String
deriving Repr, DecidableEq

/-- The fields of one parsed upstream chunk the handler reads:
`delta.reasoning_content or delta.thinking`, `delta.content`,
`delta.tool_calls`, `finish_reason` and `usage`. -/
structure UpChunk where
  reasoning : String
  content : String
  toolCalls : List ToolCallDelta
  finishReason : String
  usage : Option Usage
deriving Repr, DecidableEq

/-- One upstream `data:` frame: the `[DONE]` sentinel, a frame whose JSON
fails to parse (skipped), or a parsed chunk. -/
inductive RawFrame where
  | done
  | malformed
  | chunk (c : UpChunk)
deriving Repr, DecidableEq

/-- Payload of a `content_block_start` event. -/
inductive BlockKind where
  | thinking
  | text
  | toolUse (id name : String)
deriving Repr, DecidableEq

/-- Payload of a `content_block_delta` event. -/
inductive DeltaPayload where
  | thinkingDelta (s : String)
  | textDelta (s : String)
  | inputJsonDelta (partialJson : String)
deriving Repr, DecidableEq

/-- An emitted Anthropic SSE event. -/
inductive SseEvent where
  | messageStart
  | blockStart (index : Int) (kind : BlockKind)
  | blockDelta (index : Int) (payload : DeltaPayload)
  | blockStop (index : Int)
  | messageDelta (stopReason : String) (outputTokens : Nat)
  | messageStop
deriving Repr, DecidableEq

/-- A tool-call accumulator slot (anthropic_server.py:1974-1981); the
source's dict entry starts without a `completed` key, read back with
`.get("completed")`, modelled as `completed := false`. -/
structure ToolSlot where
  id : String
  name : String
  arguments : String
  started : Bool
  blockIndex : Int
  completed : Bool
deriving Repr, DecidableEq

/-- A freshly created slot. -/
def initToolSlot : ToolSlot := ⟨"", "", "", false, -1, false⟩

/-- Mutable state of the streaming handler (anthropic_server.py:1852-1864).
`toolCalls` is an association list kept in ascending key order — faithful to
the Python dict because the dict is only ever iterated via
`sorted(tool_calls.keys())` (stops) or `.values()` (an order-insensitive
`any`).  `textAcc` is `"".join(full_response)`. -/
structure StreamState where
  toolCalls : List (Nat × ToolSlot)
  contentBlockStarted : Bool
  thinkingBlockStarted : Bool
  textBlockIndex : Int
  thinkingBlockIndex : Int
  finishReason : String
  usage : Usage
  textAcc : String
  nextBlockIndex : Int
deriving Repr, DecidableEq

/-- Initial handler state. -/
def initStreamState : StreamState :=
  ⟨[], false, false, -1, -1, "stop", ⟨0, 0⟩, "", 0⟩

/-- Lookup in a slot map (`tool_calls[idx]`). -/
def slotLookup {α : Type} (m : List (Nat × α)) (k : Nat) : Option α :=
  (m.find? (fun p => p.1 == k)).map (fun p => p.2)

/-- Key-ordered insert-or-replace in a slot map. -/
def slotInsert {α : Type} (m : List (Nat × α)) (k : Nat) (v : α) :
    List (Nat × α) :=
  match m with
  | [] => [(k, v)]
  | (k', v') :: rest =>
    if k < k' then (k, v) :: (k', v') :: rest
    else if k = k' then (k, v) :: rest
    else (k', v') :: slotInsert rest k v

/-- Field accumulation of one `tool_calls` delta onto its slot
(anthropic_server.py:1983-2003): record a non-empty id (normalised) and
name; for a non-empty arguments fragment, first run the multi-object
detection — accumulated arguments `rstrip()`-ending in a closing brace and
fragment `lstrip()`-starting with an opening brace marks the slot completed
— and otherwise append the fragment unless the slot is completed. -/
def updSlotFields (fresh : String) (tc : ToolCallDelta) (slot0 : ToolSlot) :
    ToolSlot :=
  let slot1 := if tc.id ≠ "" then
    { slot0 with id := normalize_tool_call_id fresh tc.id } else slot0
  let slot2 := if tc.name ≠ "" then { slot1 with name := tc.name } else slot1
  if tc.arguments ≠ "" then
    if rstripEndsWith slot2.arguments '\x7d' &&
        lstripStartsWith tc.arguments '\x7b' then
      { slot2 with completed := true }
    else if ! slot2.completed then
      { slot2 with arguments := slot2.arguments ++ tc.arguments }
    else slot2
  else slot2

/-- Processing of one `tool_calls` delta (anthropic_server.py:1972-2050):
after field accumulation, a slot that now has both id and name and is not
yet started gets the next block index, emits `content_block_start` and
flushes any accumulated arguments as an `input_json_delta`; otherwise a
fresh fragment on a started, non-completed slot is emitted as an
`input_json_delta`. -/
def processToolDelta (fresh : String) (s : StreamState) (tc : ToolCallDelta) :
    StreamState × List SseEvent :=
  let slot0 := (slotLookup s.toolCalls tc.index).getD initToolSlot
  let slot3 := updSlotFields fresh tc slot0
  if slot3.id ≠ "" ∧ slot3.name ≠ "" ∧ slot3.started = false then
    let slot4 := { slot3 with blockIndex := s.nextBlockIndex, started := true }
    ({ s with toolCalls := slotInsert s.toolCalls tc.index slot4,
              nextBlockIndex := s.nextBlockIndex + 1 },
     SseEvent.blockStart slot4.blockIndex
        (.toolUse (normalize_tool_call_id fresh slot4.id) slot4.name) ::
      (if slot4.arguments ≠ "" then
        [SseEvent.blockDelta slot4.blockIndex (.inputJsonDelta slot4.arguments)]
      else []))
  else
    ({ s with toolCalls := slotInsert s.toolCalls tc.index slot3 },
     if tc.arguments ≠ "" ∧ slot3.started = true ∧ slot3.completed = false then
       [SseEvent.blockDelta slot3.blockIndex (.inputJsonDelta tc.arguments)]
     else [])

/-- Usage extraction (anthropic_server.py:1893-1895). -/
def usageStep (c : UpChunk) (s : StreamState) : StreamState :=
  match c.usage with
  | some u => { s with usage := u }
  | none => s

/-- Thinking-block handling (anthropic_server.py:1897-1931): on the first
reasoning chunk allocate the next block index and emit `content_block_start`
plus the first `thinking_delta`; afterwards just emit `thinking_delta`s. -/
def thinkStep (c : UpChunk) (s : StreamState) : StreamState × List SseEvent :=
  if c.reasoning ≠ "" then
    if s.thinkingBlockStarted = false then
      ({ s with thinkingBlockStarted := true,
                thinkingBlockIndex := s.nextBlockIndex,
                nextBlockIndex := s.nextBlockIndex + 1 },
       [SseEvent.blockStart s.nextBlockIndex .thinking,
        SseEvent.blockDelta s.nextBlockIndex (.thinkingDelta c.reasoning)])
    else
      (s, [SseEvent.blockDelta s.thinkingBlockIndex
             (.thinkingDelta c.reasoning)])
  else (s, [])

/-- Text-block handling (anthropic_server.py:1933-1967), analogous to
`thinkStep`; also accumulates the emitted text for token estimation. -/
def textStep (c : UpChunk) (s : StreamState) : StreamState × List SseEvent :=
  if c.content ≠ "" then
    if s.contentBlockStarted = false then
      ({ s with contentBlockStarted := true,
                textBlockIndex := s.nextBlockIndex,
                nextBlockIndex := s.nextBlockIndex + 1,
                textAcc := s.textAcc ++ c.content },
       [SseEvent.blockStart s.nextBlockIndex .text,
        SseEvent.blockDelta s.nextBlockIndex (.textDelta c.content)])
    else
      ({ s with textAcc := s.textAcc ++ c.content },
       [SseEvent.blockDelta s.textBlockIndex (.textDelta c.content)])
  else (s, [])

/-- Tool-call deltas of a chunk, in array order
(anthropic_server.py:1971-2050). -/
def toolsStep (fresh : String) (c : UpChunk) (s : StreamState) :
    StreamState × List SseEvent :=
  c.toolCalls.foldl
    (fun (acc : StreamState × List SseEvent) tc =>
      let r := processToolDelta fresh acc.1 tc
      (r.1, acc.2 ++ r.2))
    (s, [])

/-- `finish_reason` extraction (anthropic_server.py:2052-2054). -/
def finishStep (c : UpChunk) (s : StreamState) : StreamState :=
  if c.finishReason ≠ "" then { s with finishReason := c.finishReason } else s

/-- Processing of one parsed chunk (anthropic_server.py:1888-2054): store
`usage` when present, open/extend the thinking block, open/extend the text
block, process each `tool_calls` delta, and remember a non-empty
`finish_reason`. -/
def processChunk (fresh : String) (s : StreamState) (c : UpChunk) :
    StreamState × List SseEvent :=
  let s0 := usageStep c s
  let r1 := thinkStep c s0
  let r2 := textStep c r1.1
  let r3 := toolsStep fresh c r2.1
  (finishStep c r3.1, r1.2 ++ r2.2 ++ r3.2)

/-- Frame loop (anthropic_server.py:1869-1886, 2059-2061): malformed frames
are skipped, `[DONE]` stops consumption, remaining frames are ignored. -/
def consumeFrames (fresh : String) (s : StreamState) :
    List RawFrame → StreamState × List SseEvent
  | [] => (s, [])
  | .done :: _ => (s, [])
  | .malformed :: rest => consumeFrames fresh s rest
  | .chunk c :: rest =>
    let r := processChunk fresh s c
    let r2 := consumeFrames fresh r.1 rest
    (r2.1, r.2 ++ r2.2)

/-- Closing events (anthropic_server.py:2063-2091): stop the thinking block,
then the text block, then every started tool block in ascending slot order
(the list is kept key-sorted, matching `sorted(tool_calls.keys())`). -/
def closeEvents (s : StreamState) : List SseEvent :=
  (if s.thinkingBlockStarted then [SseEvent.blockStop s.thinkingBlockIndex]
   else []) ++
  (if s.contentBlockStarted then [SseEvent.blockStop s.textBlockIndex]
   else []) ++
  s.toolCalls.filterMap (fun p =>
    if p.2.started then some (SseEvent.blockStop p.2.blockIndex) else none)

/-- `stop_reason` mapping (anthropic_server.py:2138-2148). -/
def streamStopReason (s : StreamState) : String :=
  if s.toolCalls ≠ [] ∧ s.toolCalls.any (fun p => p.2.started) then "tool_use"
  else if s.finishReason = "stop" then "end_turn"
  else if s.finishReason = "length" then "max_tokens"
  else if s.finishReason = "tool_calls" then "tool_use"
  else "end_turn"

/-- `output_tokens` for `message_delta` (anthropic_server.py:2152-2155):
the upstream `completion_tokens` when non-zero (Python truthiness), else a
quarter of the emitted character count. -/
def streamOutputTokens (s : StreamState) : Nat :=
  if s.usage.completionTokens ≠ 0 then s.usage.completionTokens
  else s.textAcc.length / 4

/-- The full event sequence emitted by `handle_stream_passthrough` on a run
that consumes the upstream to completion without transport error:
`message_start`, the loop events, the closing `content_block_stop`s, then
`message_delta` and `message_stop`. -/
def handle_stream_passthrough (fresh : String) (frames : List RawFrame) :
    List SseEvent :=
  let r := consumeFrames fresh initStreamState frames
  SseEvent.messageStart ::
    (r.2 ++ closeEvents r.1 ++
      [SseEvent.messageDelta (streamStopReason r.1) (streamOutputTokens r.1),
       SseEvent.messageStop])

/-! ## Non-stream collector (`handle_non_stream_passthrough`)

The non-stream path (anthropic_server.py:1609-1664) collects the same
upstream frames to completion.  Its tool-call accumulation
(anthropic_server.py:1643-1658) has no multi-object detection: every
non-empty arguments fragment is appended. -/

/-- A non-stream tool-call slot (`{"id": "", "name": "", "arguments": ""}`). -/
structure NsSlot where
  id : String
  name : String
  arguments : String
deriving Repr, DecidableEq

/-- Non-stream accumulation of one `tool_calls` delta
(anthropic_server.py:1644-1658): concatenates every non-empty fragment. -/
def nsProcessToolDelta (fresh : String) (m : List (Nat × NsSlot))
    (tc : ToolCallDelta) : List (Nat × NsSlot) :=
  let slot0 := (slotLookup m tc.index).getD ⟨"", "", ""⟩
  let slot1 := if tc.id ≠ "" then
    { slot0 with id := normalize_tool_call_id fresh tc.id } else slot0
  let slot2 := if tc.name ≠ "" then { slot1 with name := tc.name } else slot1
  let slot3 := if tc.arguments ≠ "" then
    { slot2 with arguments := slot2.arguments ++ tc.arguments } else slot2
  slotInsert m tc.index slot3

/-- Non-stream collector state. -/
structure NsState where
  fullResponse : String
  thinkingResponse : String
  toolCalls : List (Nat × NsSlot)
  finishReason : String
  usage : Usage
deriving Repr, DecidableEq

/-- Non-stream processing of one parsed chunk
(anthropic_server.py:1624-1662). -/
def nsProcessChunk (fresh : String) (s : NsState) (c : UpChunk) : NsState :=
  let s0 := match c.usage with
    | some u => { s with usage := u }
    | none => s
  let s1 := if c.reasoning ≠ "" then
    { s0 with thinkingResponse := s0.thinkingResponse ++ c.reasoning } else s0
  let s2 := if c.content ≠ "" then
    { s1 with fullResponse := s1.fullResponse ++ c.content } else s1
  let s3 := { s2 with
    toolCalls := c.toolCalls.foldl (fun m tc => nsProcessToolDelta fresh m tc)
      s2.toolCalls }
  if c.finishReason ≠ "" then { s3 with finishReason := c.finishReason } else s3

/-- Non-stream frame loop (anthropic_server.py:1617-1664). -/
def ns_collect (fresh : String) (s : NsState) : List RawFrame → NsState
  | [] => s
  | .done :: _ => s
  | .malformed :: rest => ns_collect fresh s rest
  | .chunk c :: rest => ns_collect fresh (nsProcessChunk fresh s c) rest

/-- Initial non-stream collector state. -/
def initNsState : NsState := ⟨"", "", [], "stop", ⟨0, 0⟩⟩

/-! ## Event-ordering infrastructure for the streaming invariant -/

/-- Block index carried by a `content_block_*` event. -/
def SseEvent.blockIndexOf : SseEvent → Option Int
  | .blockStart i _ => some i
  | .blockDelta i _ => some i
  | .blockStop i => some i
  | _ => none

/-- The subsequence of events with the given block index. -/
def filt (i : Int) (es : List SseEvent) : List SseEvent :=
  es.filter (fun e => e.blockIndexOf == some i)

/-- History of a still-open block: nothing yet, or one start followed only
by deltas. -/
def OpenShape (i : Int) (l : List SseEvent) : Prop :=
  l = [] ∨ ∃ k ds, l = SseEvent.blockStart i k :: ds ∧
    ∀ e ∈ ds, ∃ p, e = SseEvent.blockDelta i p

/-- Block indices owned by started tool slots, in map order. -/
def toolOwners (m : List (Nat × ToolSlot)) : List Int :=
  m.filterMap (fun p => if p.2.started then some p.2.blockIndex else none)

/-- Block indices of all started blocks: thinking, then text, then tools. -/
def owners (s : StreamState) : List Int :=
  (if s.thinkingBlockStarted then [s.thinkingBlockIndex] else []) ++
  (if s.contentBlockStarted then [s.textBlockIndex] else []) ++
  toolOwners s.toolCalls

/-- Loop invariant of the streaming handler: block indices of started
blocks are distinct and below the allocation counter, only start/delta
events have been emitted, the per-index histories are well-formed open
blocks, and an index has events iff some started block owns it. -/
structure StreamInv (s : StreamState) (evs : List SseEvent) : Prop where
  skeys : s.toolCalls.Pairwise (fun a b => a.1 < b.1)
  nodup : (owners s).Nodup
  bound : ∀ i ∈ owners s, i < s.nextBlockIndex
  loopOnly : ∀ e ∈ evs, (∃ i k, e = SseEvent.blockStart i k) ∨
    (∃ i p, e = SseEvent.blockDelta i p)
  shape : ∀ i, OpenShape i (filt i evs)
  ownIff : ∀ i, filt i evs ≠ [] ↔ i ∈ owners s

/-! ## Object-lookup lemmas for the state-file loader -/

theorem objLookup_cons (k₀ : String) (v₀ : Json) (kvs : List (String × Json))
    (k : String) :
    objLookup ((k₀, v₀) :: kvs) k = if k₀ = k then some v₀ else objLookup kvs k := by
  by_cases h : k₀ = k <;> simp [objLookup, List.find?_cons, h]

theorem any_iff_lookup (kvs : List (String × Json)) (k : String) :
    (kvs.any (fun p => p.1 == k) = true) ↔ (objLookup kvs k).isSome := by
  induction kvs with
  | nil => simp [objLookup]
  | cons p rest ih =>
    obtain ⟨k₀, v₀⟩ := p
    by_cases h : k₀ = k <;> simp [objLookup_cons, h, ih]

theorem objLookup_append_single_of_some {kvs : List (String × Json)}
    {k' : String} {w : Json} (k : String) (v : Json)
    (h : objLookup kvs k' = some w) :
    objLookup (kvs ++ [(k, v)]) k' = some w := by
  induction kvs with
  | nil => simp [objLookup] at h
  | cons p rest ih =>
    obtain ⟨k₀, v₀⟩ := p
    by_cases hk : k₀ = k' <;>
      simp_all [objLookup_cons, hk]

theorem objLookup_append_single_of_none {kvs : List (String × Json)}
    {k' : String} (k : String) (v : Json) (h : objLookup kvs k' = none) :
    objLookup (kvs ++ [(k, v)]) k' = if k = k' then some v else none := by
  induction kvs with
  | nil => simp [objLookup_cons, objLookup]
  | cons p rest ih =>
    obtain ⟨k₀, v₀⟩ := p
    by_cases hk : k₀ = k' <;> simp_all [objLookup_cons, hk]

theorem mergeNa_lookup_some (defaults : List (String × Json))
    (navs : List (String × Json)) (k : String) (w : Json)
    (h : objLookup navs k = some w) :
    objLookup (mergeNa navs defaults) k = some w := by
  induction defaults generalizing navs with
  | nil => exact h
  | cons kv ds ih =>
    simp only [mergeNa, List.foldl_cons]
    by_cases hany : navs.any (fun p => p.1 == kv.1) = true
    · rw [if_pos hany]
      exact ih navs h
    · rw [if_neg hany]
      exact ih _ (objLookup_append_single_of_some kv.1 kv.2 h)

theorem mergeNa_lookup_none (defaults : List (String × Json))
    (navs : List (String × Json)) (k : String)
    (h : objLookup navs k = none) :
    objLookup (mergeNa navs defaults) k = objLookup defaults k := by
  induction defaults generalizing navs with
  | nil => simpa [mergeNa]
  | cons kv ds ih =>
    obtain ⟨k₀, v₀⟩ := kv
    have hstep : mergeNa navs ((k₀, v₀) :: ds) =
        mergeNa (if (navs.any fun p => p.1 == k₀) = true then navs
                 else navs ++ [(k₀, v₀)]) ds := rfl
    rw [hstep]
    by_cases hany : navs.any (fun p => p.1 == k₀) = true
    · rw [if_pos hany]
      by_cases hk : k₀ = k
      · subst hk
        have := (any_iff_lookup navs k₀).1 hany
        simp [h] at this
      · rw [objLookup_cons, if_neg hk]
        exact ih navs h
    · rw [if_neg hany]
      by_cases hk : k₀ = k
      · subst hk
        have h2 : objLookup (navs ++ [(k₀, v₀)]) k₀ = some v₀ := by
          rw [objLookup_append_single_of_none k₀ v₀ h, if_pos rfl]
        rw [mergeNa_lookup_some ds _ _ _ h2, objLookup_cons, if_pos rfl]
      · have h2 : objLookup (navs ++ [(k₀, v₀)]) k = none := by
          rw [objLookup_append_single_of_none k₀ v₀ h, if_neg hk]
        rw [ih _ h2, objLookup_cons, if_neg hk]

theorem objLookup_map_set_self (kvs : List (String × Json)) (k : String)
    (v : Json) (h : kvs.any (fun p => p.1 == k) = true) :
    objLookup (kvs.map (fun p => if p.1 == k then (k, v) else p)) k = some v := by
  induction kvs with
  | nil => simp at h
  | cons p rest ih =>
    obtain ⟨k₀, v₀⟩ := p
    by_cases hk : k₀ = k
    · subst hk
      simp [objLookup_cons]
    · simp only [List.map_cons]
      rw [if_neg (by simp [hk]), objLookup_cons, if_neg hk]
      exact ih (by simpa [hk] using h)

theorem objLookup_map_set_ne (kvs : List (String × Json)) (k : String)
    (v : Json) (k' : String) (h : k ≠ k') :
    objLookup (kvs.map (fun p => if p.1 == k then (k, v) else p)) k' =
      objLookup kvs k' := by
  induction kvs with
  | nil => rfl
  | cons p rest ih =>
    obtain ⟨k₀, v₀⟩ := p
    by_cases hk : k₀ = k
    · subst hk
      simp only [List.map_cons]
      rw [if_pos (by simp), objLookup_cons, objLookup_cons, if_neg h,
        if_neg (by exact h), ih]
    · simp only [List.map_cons]
      rw [if_neg (by simp [hk]), objLookup_cons, objLookup_cons]
      by_cases hk' : k₀ = k'
      · simp [hk']
      · rw [if_neg hk', if_neg hk', ih]

theorem objSet_lookup_self (kvs : List (String × Json)) (k : String) (v : Json) :
    objLookup (objSet kvs k v) k = some v := by
  unfold objSet
  by_cases hany : kvs.any (fun p => p.1 == k) = true
  · rw [if_pos hany]
    exact objLookup_map_set_self kvs k v hany
  · rw [if_neg hany]
    have hnone : objLookup kvs k = none := by
      cases ho : objLookup kvs k with
      | none => rfl
      | some w => exact absurd ((any_iff_lookup kvs k).2 (by simp [ho])) hany
    rw [objLookup_append_single_of_none k v hnone, if_pos rfl]

theorem objSet_lookup_ne (kvs : List (String × Json)) (k : String) (v : Json)
    (k' : String) (h : k ≠ k') :
    objLookup (objSet kvs k v) k' = objLookup kvs k' := by
  unfold objSet
  by_cases hany : kvs.any (fun p => p.1 == k) = true
  · rw [if_pos hany]
    exact objLookup_map_set_ne kvs k v k' h
  · rw [if_neg hany]
    cases ho : objLookup kvs k' with
    | some w => rw [objLookup_append_single_of_some k v ho]
    | none => rw [objLookup_append_single_of_none k v ho, if_neg h]

theorem except_bind_ok {ε α β : Type} (a : α) (f : α → Except ε β) :
    (Except.ok a >>= f : Except ε β) = f a := rfl

theorem fold_merge (defaults navs : List (String × Json)) :
    (defaults.foldlM (fun acc kv => do
        let has ← pyContains acc kv.1
        if has then pure acc else pySetItem acc kv.1 kv.2)
      (Json.obj navs)) = Except.ok (Json.obj (mergeNa navs defaults)) := by
  induction defaults generalizing navs with
  | nil => rfl
  | cons kv ds ih =>
    simp only [List.foldlM_cons, pyContains, mergeNa, List.foldl_cons]
    by_cases hany : navs.any (fun p => p.1 == kv.1) = true
    · simp only [hany, if_pos rfl]
      simpa [mergeNa] using ih navs
    · simp only [Bool.not_eq_true] at hany
      simp only [hany]
      have hset : objSet navs kv.1 kv.2 = navs ++ [(kv.1, kv.2)] := by
        unfold objSet
        rw [if_neg (by simp [hany])]
      simpa [pySetItem, hset, mergeNa] using ih (navs ++ [(kv.1, kv.2)])

theorem filt_nil (i : Int) : filt i [] = [] := rfl

theorem filt_append (i : Int) (a b : List SseEvent) :
    filt i (a ++ b) = filt i a ++ filt i b := by
  simp [filt]

theorem filt_start_self (i : Int) (k : BlockKind) (l : List SseEvent) :
    filt i (SseEvent.blockStart i k :: l) = SseEvent.blockStart i k :: filt i l := by
  simp [filt, SseEvent.blockIndexOf]

theorem filt_delta_self (i : Int) (p : DeltaPayload) (l : List SseEvent) :
    filt i (SseEvent.blockDelta i p :: l) = SseEvent.blockDelta i p :: filt i l := by
  simp [filt, SseEvent.blockIndexOf]

theorem filt_start_ne {i j : Int} (h : j ≠ i) (k : BlockKind) (l : List SseEvent) :
    filt i (SseEvent.blockStart j k :: l) = filt i l := by
  simp [filt, SseEvent.blockIndexOf, h]

theorem filt_stop_self (i : Int) (l : List SseEvent) :
    filt i (SseEvent.blockStop i :: l) = SseEvent.blockStop i :: filt i l := by
  simp [filt, SseEvent.blockIndexOf]

theorem filt_stop_ne {i j : Int} (h : j ≠ i) (l : List SseEvent) :
    filt i (SseEvent.blockStop j :: l) = filt i l := by
  simp [filt, SseEvent.blockIndexOf, h]

theorem filt_delta_ne {i j : Int} (h : j ≠ i) (p : DeltaPayload) (l : List SseEvent) :
    filt i (SseEvent.blockDelta j p :: l) = filt i l := by
  simp [filt, SseEvent.blockIndexOf, h]

/-- A pure state change that keeps the owners and does not lower the
allocation counter preserves the invariant. -/
theorem StreamInv.noEvent {s s' : StreamState} {evs : List SseEvent}
    (h : StreamInv s evs) (ho : owners s' = owners s)
    (hn : s.nextBlockIndex ≤ s'.nextBlockIndex)
    (hsk : s'.toolCalls.Pairwise (fun a b => a.1 < b.1)) : StreamInv s' evs := by
  refine ⟨hsk, by rw [ho]; exact h.nodup, ?_, h.loopOnly, h.shape, ?_⟩
  · intro i hi
    rw [ho] at hi
    exact lt_of_lt_of_le (h.bound i hi) hn
  · intro i
    rw [ho]
    exact h.ownIff i

/-- Emitting a delta for an index already owned preserves the invariant. -/
theorem StreamInv.appendDelta {s s' : StreamState} {evs : List SseEvent}
    {i : Int} {p : DeltaPayload}
    (h : StreamInv s evs) (hi : i ∈ owners s) (ho : owners s' = owners s)
    (hn : s'.nextBlockIndex = s.nextBlockIndex)
    (hsk : s'.toolCalls.Pairwise (fun a b => a.1 < b.1)) :
    StreamInv s' (evs ++ [SseEvent.blockDelta i p]) := by
  refine ⟨hsk, by rw [ho]; exact h.nodup, ?_, ?_, ?_, ?_⟩
  · intro j hj
    rw [ho] at hj
    rw [hn]
    exact h.bound j hj
  · intro e he
    rcases List.mem_append.mp he with he | he
    · exact h.loopOnly e he
    · simp only [List.mem_singleton] at he
      subst he
      exact Or.inr ⟨i, p, rfl⟩
  · intro j
    rw [filt_append]
    by_cases hji : j = i
    · subst hji
      have hne : filt j evs ≠ [] := (h.ownIff j).mpr hi
      rcases h.shape j with hsh | ⟨k, ds, hds, hall⟩
      · exact absurd hsh hne
      · right
        refine ⟨k, ds ++ [SseEvent.blockDelta j p], ?_, ?_⟩
        · rw [hds, filt_delta_self]
          simp [filt]
        · intro e he
          rcases List.mem_append.mp he with he | he
          · exact hall e he
          · simp only [List.mem_singleton] at he
            subst he
            exact ⟨p, rfl⟩
    · rw [filt_delta_ne (fun hh => hji hh.symm) p [], filt_nil, List.append_nil]
      exact h.shape j
  · intro j
    rw [filt_append]
    by_cases hji : j = i
    · subst hji
      constructor
      · intro _
        rw [ho]
        exact hi
      · intro _
        rw [filt_delta_self]
        simp [filt]
    · rw [filt_delta_ne (fun hh => hji hh.symm) p [], filt_nil, List.append_nil,
        ho]
      exact h.ownIff j

/-- Starting a fresh block at the allocation counter (optionally followed
by its first delta) preserves the invariant, with the new index spliced
into the owners list. -/
theorem StreamInv.appendFresh {s s' : StreamState} {evs : List SseEvent}
    {i : Int} {k : BlockKind} {more : List SseEvent}
    (h : StreamInv s evs) (hi : i = s.nextBlockIndex)
    (hsplit : ∃ l r, owners s = l ++ r ∧ owners s' = l ++ i :: r)
    (hn : s'.nextBlockIndex = s.nextBlockIndex + 1)
    (hmore : more = [] ∨ ∃ p, more = [SseEvent.blockDelta i p])
    (hsk : s'.toolCalls.Pairwise (fun a b => a.1 < b.1)) :
    StreamInv s' (evs ++ SseEvent.blockStart i k :: more) := by
  obtain ⟨l, r, hlr, hlr'⟩ := hsplit
  have hinotin : i ∉ owners s := by
    intro hmem
    have := h.bound i hmem
    subst hi
    exact lt_irrefl _ this
  have hfi : filt i evs = [] := by
    by_contra hne
    exact hinotin ((h.ownIff i).mp hne)
  have hmem' : ∀ j, j ∈ owners s' ↔ j = i ∨ j ∈ owners s := by
    intro j
    rw [hlr', hlr]
    simp only [List.mem_append, List.mem_cons]
    tauto
  have hfiltself : filt i (SseEvent.blockStart i k :: more) =
      SseEvent.blockStart i k :: more := by
    rcases hmore with hm | ⟨p, hm⟩ <;> subst hm
    · rw [filt_start_self]
      rfl
    · rw [filt_start_self, filt_delta_self]
      rfl
  have hfiltne : ∀ j, j ≠ i → filt j (SseEvent.blockStart i k :: more) = [] := by
    intro j hj
    rcases hmore with hm | ⟨p, hm⟩ <;> subst hm
    · rw [filt_start_ne (fun hh => hj hh.symm)]
      rfl
    · rw [filt_start_ne (fun hh => hj hh.symm), filt_delta_ne (fun hh => hj hh.symm)]
      rfl
  refine ⟨hsk, ?_, ?_, ?_, ?_, ?_⟩
  · rw [hlr', List.nodup_middle, List.nodup_cons]
    exact ⟨by rw [← hlr]; exact hinotin, by rw [← hlr]; exact h.nodup⟩
  · intro j hj
    rw [hmem'] at hj
    rw [hn]
    rcases hj with hj | hj
    · subst hj
      omega
    · have := h.bound j hj
      omega
  · intro e he
    rcases List.mem_append.mp he with he | he
    · exact h.loopOnly e he
    · rcases List.mem_cons.mp he with he | he
      · subst he
        exact Or.inl ⟨i, k, rfl⟩
      · rcases hmore with hm | ⟨p, hm⟩ <;> subst hm
        · simp at he
        · simp only [List.mem_singleton] at he
          subst he
          exact Or.inr ⟨i, p, rfl⟩
  · intro j
    rw [filt_append]
    by_cases hji : j = i
    · subst hji
      rw [hfi, hfiltself, List.nil_append]
      right
      refine ⟨k, more, rfl, ?_⟩
      rcases hmore with hm | ⟨p, hm⟩ <;> subst hm
      · intro e he
        simp at he
      · intro e he
        simp only [List.mem_singleton] at he
        subst he
        exact ⟨p, rfl⟩
    · rw [hfiltne j hji, List.append_nil]
      exact h.shape j
  · intro j
    rw [filt_append, hmem']
    by_cases hji : j = i
    · subst hji
      rw [hfi, hfiltself, List.nil_append]
      simp
    · rw [hfiltne j hji, List.append_nil]
      constructor
      · intro hne
        exact Or.inr ((h.ownIff j).mp hne)
      · intro hj
        rcases hj with hj | hj
        · exact absurd hj hji
        · exact (h.ownIff j).mpr hj

/-! ## Slot-map lemmas -/

theorem mem_slotInsert {α : Type} {m : List (Nat × α)} {k : Nat} {v : α}
    {p : Nat × α} (h : p ∈ slotInsert m k v) : p = (k, v) ∨ p ∈ m := by
  induction m with
  | nil => simpa [slotInsert] using h
  | cons q rest ih =>
    obtain ⟨k', v'⟩ := q
    simp only [slotInsert] at h
    split_ifs at h with h1 h2
    · rcases List.mem_cons.mp h with h | h
      · exact Or.inl h
      · exact Or.inr h
    · rcases List.mem_cons.mp h with h | h
      · exact Or.inl h
      · exact Or.inr (List.mem_cons_of_mem _ h)
    · rcases List.mem_cons.mp h with h | h
      · exact Or.inr (h ▸ List.mem_cons_self _ _)
      · rcases ih h with h | h
        · exact Or.inl h
        · exact Or.inr (List.mem_cons_of_mem _ h)

theorem slotInsert_pairwise {α : Type} {m : List (Nat × α)} {k : Nat} {v : α}
    (hp : m.Pairwise (fun a b => a.1 < b.1)) :
    (slotInsert m k v).Pairwise (fun a b => a.1 < b.1) := by
  induction m with
  | nil => simp [slotInsert]
  | cons q rest ih =>
    obtain ⟨k', v'⟩ := q
    rw [List.pairwise_cons] at hp
    obtain ⟨hhead, htail⟩ := hp
    simp only [slotInsert]
    split_ifs with h1 h2
    · rw [List.pairwise_cons]
      refine ⟨?_, ?_⟩
      · intro b hb
        rcases List.mem_cons.mp hb with hb | hb
        · subst hb
          exact h1
        · exact lt_trans h1 (hhead b hb)
      · rw [List.pairwise_cons]
        exact ⟨hhead, htail⟩
    · subst h2
      rw [List.pairwise_cons]
      exact ⟨hhead, htail⟩
    · rw [List.pairwise_cons]
      refine ⟨?_, ih htail⟩
      intro b hb
      rcases mem_slotInsert hb with hb | hb
      · subst hb
        simp only
        omega
      · exact hhead b hb

theorem slotLookup_cons {α : Type} (k' : Nat) (v' : α) (rest : List (Nat × α))
    (k : Nat) :
    slotLookup ((k', v') :: rest) k =
      if k' = k then some v' else slotLookup rest k := by
  by_cases h : k' = k <;> simp [slotLookup, List.find?_cons, h]

theorem slotLookup_mem {α : Type} {m : List (Nat × α)} {k : Nat} {v : α}
    (h : slotLookup m k = some v) : (k, v) ∈ m := by
  induction m with
  | nil => simp [slotLookup] at h
  | cons q rest ih =>
    obtain ⟨k', v'⟩ := q
    rw [slotLookup_cons] at h
    by_cases hk : k' = k
    · rw [if_pos hk] at h
      obtain rfl := Option.some.inj h
      subst hk
      exact List.mem_cons_self _ _
    · rw [if_neg hk] at h
      exact List.mem_cons_of_mem _ (ih h)

theorem blockIndex_mem_toolOwners {m : List (Nat × ToolSlot)} {k : Nat}
    {v : ToolSlot} (hl : slotLookup m k = some v) (hv : v.started = true) :
    v.blockIndex ∈ toolOwners m := by
  have hmem := slotLookup_mem hl
  rw [toolOwners, List.mem_filterMap]
  exact ⟨(k, v), hmem, by simp [hv]⟩

theorem toolOwners_cons (q : Nat × ToolSlot) (rest : List (Nat × ToolSlot)) :
    toolOwners (q :: rest) =
      (if q.2.started then [q.2.blockIndex] else []) ++ toolOwners rest := by
  cases hq : q.2.started <;> simp [toolOwners, List.filterMap_cons, hq]

theorem toolOwners_insert_new_unstarted {m : List (Nat × ToolSlot)} {k : Nat}
    {w : ToolSlot} (hl : slotLookup m k = none) (hw : w.started = false) :
    toolOwners (slotInsert m k w) = toolOwners m := by
  induction m with
  | nil => simp [slotInsert, toolOwners, hw]
  | cons q rest ih =>
    obtain ⟨k', v'⟩ := q
    rw [slotLookup_cons] at hl
    by_cases hkk : k' = k
    · rw [if_pos hkk] at hl
      simp at hl
    · rw [if_neg hkk] at hl
      simp only [slotInsert]
      split_ifs with h1 h2
      · rw [toolOwners_cons (k, w)]
        simp [hw]
      · exact absurd h2 (fun hh => hkk hh.symm)
      · rw [toolOwners_cons, toolOwners_cons, ih hl]

theorem toolOwners_insert_replace {m : List (Nat × ToolSlot)} {k : Nat}
    {w v : ToolSlot} (hp : m.Pairwise (fun a b => a.1 < b.1))
    (hl : slotLookup m k = some v) (hs : v.started = w.started)
    (hb : v.blockIndex = w.blockIndex) :
    toolOwners (slotInsert m k w) = toolOwners m := by
  induction m with
  | nil => simp [slotLookup] at hl
  | cons q rest ih =>
    obtain ⟨k', v'⟩ := q
    rw [List.pairwise_cons] at hp
    obtain ⟨hhead, htail⟩ := hp
    rw [slotLookup_cons] at hl
    simp only [slotInsert]
    split_ifs with h1 h2
    · rw [if_neg (by omega : ¬ k' = k)] at hl
      have hnone : slotLookup rest k = none := by
        cases hrl : slotLookup rest k with
        | none => rfl
        | some u =>
          have hm := slotLookup_mem hrl
          have := hhead _ hm
          simp only at this
          omega
      rw [hnone] at hl
      simp at hl
    · subst h2
      rw [if_pos rfl] at hl
      obtain rfl := Option.some.inj hl
      rw [toolOwners_cons, toolOwners_cons]
      simp only
      rw [← hs, ← hb]
    · rw [if_neg (fun hh => h2 hh.symm)] at hl
      rw [toolOwners_cons, toolOwners_cons, ih htail hl]

theorem toolOwners_insert_started {m : List (Nat × ToolSlot)} {k : Nat}
    {w : ToolSlot} (hp : m.Pairwise (fun a b => a.1 < b.1))
    (h : slotLookup m k = none ∨
      ∃ v, slotLookup m k = some v ∧ v.started = false)
    (hw : w.started = true) :
    ∃ l r, toolOwners m = l ++ r ∧
      toolOwners (slotInsert m k w) = l ++ w.blockIndex :: r := by
  induction m with
  | nil =>
    exact ⟨[], [], rfl, by simp [slotInsert, toolOwners, hw]⟩
  | cons q rest ih =>
    obtain ⟨k', v'⟩ := q
    rw [List.pairwise_cons] at hp
    obtain ⟨hhead, htail⟩ := hp
    simp only [slotInsert]
    split_ifs with h1 h2
    · refine ⟨[], toolOwners ((k', v') :: rest), rfl, ?_⟩
      rw [toolOwners_cons (k, w)]
      simp [hw]
    · subst h2
      have hv' : v'.started = false := by
        rcases h with h | ⟨v, hv, hvs⟩
        · rw [slotLookup_cons, if_pos rfl] at h
          simp at h
        · rw [slotLookup_cons, if_pos rfl] at hv
          obtain rfl := Option.some.inj hv
          exact hvs
      refine ⟨[], toolOwners rest, ?_, ?_⟩
      · rw [toolOwners_cons]
        simp [hv']
      · rw [toolOwners_cons (k, w)]
        simp [hw]
    · have hrest : slotLookup rest k = none ∨
          ∃ v, slotLookup rest k = some v ∧ v.started = false := by
        rcases h with h | ⟨v, hv, hvs⟩
        · left
          rw [slotLookup_cons, if_neg (fun hh => h2 hh.symm)] at h
          exact h
        · right
          rw [slotLookup_cons, if_neg (fun hh => h2 hh.symm)] at hv
          exact ⟨v, hv, hvs⟩
      obtain ⟨l', r', hl', hr'⟩ := ih htail hrest
      refine ⟨(if v'.started then [v'.blockIndex] else []) ++ l', r', ?_, ?_⟩
      · rw [toolOwners_cons, hl', List.append_assoc]
      · rw [toolOwners_cons, hr', List.append_assoc]

theorem updSlotFields_started (fresh : String) (tc : ToolCallDelta)
    (v : ToolSlot) : (updSlotFields fresh tc v).started = v.started := by
  simp only [updSlotFields]
  split_ifs <;> rfl

theorem updSlotFields_blockIndex (fresh : String) (tc : ToolCallDelta)
    (v : ToolSlot) : (updSlotFields fresh tc v).blockIndex = v.blockIndex := by
  simp only [updSlotFields]
  split_ifs <;> rfl

/-- One tool-call delta preserves the streaming invariant. -/
theorem processToolDelta_preserves (fresh : String) (tc : ToolCallDelta)
    {s : StreamState} {evs : List SseEvent} (h : StreamInv s evs) :
    StreamInv (processToolDelta fresh s tc).1
      (evs ++ (processToolDelta fresh s tc).2) := by
  simp only [processToolDelta]
  set slot0 := (slotLookup s.toolCalls tc.index).getD initToolSlot with hslot0
  set slot3 := updSlotFields fresh tc slot0 with hslot3
  have hst : slot3.started = slot0.started := by
    rw [hslot3]
    exact updSlotFields_started fresh tc slot0
  have hbi : slot3.blockIndex = slot0.blockIndex := by
    rw [hslot3]
    exact updSlotFields_blockIndex fresh tc slot0
  by_cases hcond : slot3.id ≠ "" ∧ slot3.name ≠ "" ∧ slot3.started = false
  · rw [if_pos hcond]
    dsimp only
    have hs0 : slot0.started = false := by
      rw [← hst]
      exact hcond.2.2
    have hlr : slotLookup s.toolCalls tc.index = none ∨
        ∃ v, slotLookup s.toolCalls tc.index = some v ∧ v.started = false := by
      cases hl : slotLookup s.toolCalls tc.index with
      | none => exact Or.inl rfl
      | some v =>
        refine Or.inr ⟨v, rfl, ?_⟩
        rw [hslot0, hl] at hs0
        exact hs0
    obtain ⟨l', r', e1, e2⟩ := toolOwners_insert_started (w :=
      { slot3 with blockIndex := s.nextBlockIndex, started := true })
      h.skeys hlr rfl
    apply StreamInv.appendFresh h rfl ?hsplit rfl ?hmore ?hsk
    case hsplit =>
      refine ⟨(if s.thinkingBlockStarted then [s.thinkingBlockIndex] else []) ++
        ((if s.contentBlockStarted then [s.textBlockIndex] else []) ++ l'),
        r', ?_, ?_⟩
      · simp only [owners, e1, List.append_assoc]
      · simp only [owners]
        rw [e2]
        simp only [List.append_assoc]
    case hmore =>
      by_cases ha : slot3.arguments ≠ ""
      · right
        refine ⟨.inputJsonDelta slot3.arguments, ?_⟩
        dsimp only
        rw [if_pos ha]
      · left
        dsimp only
        rw [if_neg ha]
    case hsk => exact slotInsert_pairwise h.skeys
  · rw [if_neg hcond]
    dsimp only
    have howners : toolOwners (slotInsert s.toolCalls tc.index slot3) =
        toolOwners s.toolCalls := by
      cases hl : slotLookup s.toolCalls tc.index with
      | none =>
        apply toolOwners_insert_new_unstarted hl
        rw [hst, hslot0, hl]
        rfl
      | some v =>
        apply toolOwners_insert_replace h.skeys hl
        · rw [hst, hslot0, hl]
          rfl
        · rw [hbi, hslot0, hl]
          rfl
    have ho : owners { s with
        toolCalls := slotInsert s.toolCalls tc.index slot3 } = owners s := by
      simp only [owners]
      rw [howners]
    by_cases hd : tc.arguments ≠ "" ∧ slot3.started = true ∧
        slot3.completed = false
    · rw [if_pos hd]
      have hs0 : slot0.started = true := by
        rw [← hst]
        exact hd.2.1
      cases hl : slotLookup s.toolCalls tc.index with
      | none =>
        exfalso
        rw [hslot0, hl] at hs0
        simp [initToolSlot] at hs0
      | some v =>
        have hbv : slot3.blockIndex = v.blockIndex := by
          rw [hbi, hslot0, hl]
          rfl
        have hvstart : v.started = true := by
          rw [hslot0, hl] at hs0
          exact hs0
        apply StreamInv.appendDelta h ?mem ho rfl ?sk
        case mem =>
          rw [hbv]
          have hmem := blockIndex_mem_toolOwners hl hvstart
          simp only [owners, List.mem_append]
          tauto
        case sk => exact slotInsert_pairwise h.skeys
    · rw [if_neg hd, List.append_nil]
      exact StreamInv.noEvent h ho (le_refl _) (slotInsert_pairwise h.skeys)

/-- The tool-call fold of a chunk preserves the invariant. -/
theorem toolsStep_fold_preserves (fresh : String) (tcs : List ToolCallDelta) :
    ∀ (s : StreamState) (acc evs : List SseEvent), StreamInv s (evs ++ acc) →
    StreamInv (tcs.foldl (fun (a : StreamState × List SseEvent) tc =>
        let r := processToolDelta fresh a.1 tc
        (r.1, a.2 ++ r.2)) (s, acc)).1
      (evs ++ (tcs.foldl (fun (a : StreamState × List SseEvent) tc =>
        let r := processToolDelta fresh a.1 tc
        (r.1, a.2 ++ r.2)) (s, acc)).2) := by
  induction tcs with
  | nil =>
    intro s acc evs h
    exact h
  | cons tc rest ih =>
    intro s acc evs h
    simp only [List.foldl_cons]
    apply ih
    rw [← List.append_assoc]
    exact processToolDelta_preserves fresh tc h

/-- Recording the usage field preserves the invariant. -/
theorem usageStep_inv (c : UpChunk) {s : StreamState} {evs : List SseEvent}
    (h : StreamInv s evs) : StreamInv (usageStep c s) evs := by
  cases hu : c.usage with
  | none => simpa [usageStep, hu] using h
  | some u =>
    have he : usageStep c s = { s with usage := u } := by
      simp [usageStep, hu]
    rw [he]
    exact h.noEvent rfl (le_refl _) h.skeys

/-- Recording the finish reason preserves the invariant. -/
theorem finishStep_inv (c : UpChunk) {s : StreamState} {evs : List SseEvent}
    (h : StreamInv s evs) : StreamInv (finishStep c s) evs := by
  by_cases hf : c.finishReason ≠ ""
  · have he : finishStep c s = { s with finishReason := c.finishReason } := by
      simp [finishStep, hf]
    rw [he]
    exact h.noEvent rfl (le_refl _) h.skeys
  · have he : finishStep c s = s := by
      simp [finishStep, hf]
    rw [he]
    exact h

/-- The thinking-block step preserves the invariant. -/
theorem thinkStep_preserves (c : UpChunk) {s : StreamState}
    {evs : List SseEvent} (h : StreamInv s evs) :
    StreamInv (thinkStep c s).1 (evs ++ (thinkStep c s).2) := by
  simp only [thinkStep]
  by_cases hr : c.reasoning ≠ ""
  · rw [if_pos hr]
    by_cases hts : s.thinkingBlockStarted = false
    · rw [if_pos hts]
      dsimp only
      refine StreamInv.appendFresh h rfl ?split rfl
        (Or.inr ⟨.thinkingDelta c.reasoning, rfl⟩) h.skeys
      case split =>
        refine ⟨[], owners s, by simp, ?_⟩
        simp [owners, hts]
    · rw [if_neg hts]
      dsimp only
      refine StreamInv.appendDelta h ?mem rfl rfl h.skeys
      case mem =>
        have hts' : s.thinkingBlockStarted = true := by
          cases hb : s.thinkingBlockStarted
          · exact absurd hb hts
          · rfl
        simp [owners, hts']
  · rw [if_neg hr, List.append_nil]
    exact h

/-- The text-block step preserves the invariant. -/
theorem textStep_preserves (c : UpChunk) {s : StreamState}
    {evs : List SseEvent} (h : StreamInv s evs) :
    StreamInv (textStep c s).1 (evs ++ (textStep c s).2) := by
  simp only [textStep]
  by_cases hr : c.content ≠ ""
  · rw [if_pos hr]
    by_cases hts : s.contentBlockStarted = false
    · rw [if_pos hts]
      dsimp only
      refine StreamInv.appendFresh h rfl ?split rfl
        (Or.inr ⟨.textDelta c.content, rfl⟩) h.skeys
      case split =>
        refine ⟨(if s.thinkingBlockStarted then [s.thinkingBlockIndex] else []),
          toolOwners s.toolCalls, ?_, ?_⟩
        · simp [owners, hts]
        · simp [owners]
    · rw [if_neg hts]
      dsimp only
      refine StreamInv.appendDelta h ?mem rfl rfl h.skeys
      case mem =>
        have hts' : s.contentBlockStarted = true := by
          cases hb : s.contentBlockStarted
          · exact absurd hb hts
          · rfl
        simp [owners, hts']
  · rw [if_neg hr, List.append_nil]
    exact h

/-- Processing one chunk preserves the invariant. -/
theorem processChunk_preserves (fresh : String) (c : UpChunk)
    {s : StreamState} {evs : List SseEvent} (h : StreamInv s evs) :
    StreamInv (processChunk fresh s c).1 (evs ++ (processChunk fresh s c).2) := by
  simp only [processChunk]
  have h0 : StreamInv (usageStep c s) evs := usageStep_inv c h
  have h1 := thinkStep_preserves c h0
  have h2 := textStep_preserves c h1
  have h3 := toolsStep_fold_preserves fresh c.toolCalls
    (textStep c (thinkStep c (usageStep c s)).1).1 []
    ((evs ++ (thinkStep c (usageStep c s)).2) ++
      (textStep c (thinkStep c (usageStep c s)).1).2)
    (by rw [List.append_nil]; exact h2)
  have h4 := finishStep_inv (s := (toolsStep fresh c
    (textStep c (thinkStep c (usageStep c s)).1).1).1) c h3
  simpa [toolsStep, List.append_assoc] using h4

/-- Consuming any frame list preserves the invariant. -/
theorem consumeFrames_inv (fresh : String) (frames : List RawFrame) :
    ∀ (s : StreamState) (evs : List SseEvent), StreamInv s evs →
    StreamInv (consumeFrames fresh s frames).1
      (evs ++ (consumeFrames fresh s frames).2) := by
  induction frames with
  | nil =>
    intro s evs h
    simpa [consumeFrames] using h
  | cons f rest ih =>
    intro s evs h
    cases f with
    | done => simpa [consumeFrames] using h
    | malformed => simpa [consumeFrames] using ih s evs h
    | chunk c =>
      simp only [consumeFrames]
      have h1 := processChunk_preserves fresh c h
      have h2 := ih _ _ h1
      simpa [List.append_assoc] using h2

/-- The invariant holds initially. -/
theorem streamInv_init : StreamInv initStreamState [] := by
  refine ⟨?_, ?_, ?_, ?_, ?_, ?_⟩
  · simp [initStreamState]
  · simp [owners, initStreamState, toolOwners]
  · intro i hi
    simp [owners, initStreamState, toolOwners] at hi
  · intro e he
    simp at he
  · intro i
    exact Or.inl rfl
  · intro i
    simp [filt, owners, initStreamState, toolOwners]

/-- The closing events are exactly one `content_block_stop` per owned
block index, in owners order. -/
theorem map_stop_toolOwners (m : List (Nat × ToolSlot)) :
    (toolOwners m).map SseEvent.blockStop =
      m.filterMap (fun p =>
        if p.2.started then some (SseEvent.blockStop p.2.blockIndex) else none) := by
  rw [toolOwners, List.map_filterMap]
  congr 1
  funext p
  split_ifs <;> rfl

theorem closeEvents_eq (s : StreamState) :
    closeEvents s = (owners s).map SseEvent.blockStop := by
  cases ht : s.thinkingBlockStarted <;> cases hc : s.contentBlockStarted <;>
    simp [closeEvents, owners, ht, hc, map_stop_toolOwners]

/-- Filtering a distinct stop list yields at most one stop. -/
theorem filt_map_stop (i : Int) (l : List Int) (hnd : l.Nodup) :
    filt i (l.map SseEvent.blockStop) =
      if i ∈ l then [SseEvent.blockStop i] else [] := by
  induction l with
  | nil => simp [filt]
  | cons j rest ih =>
    rw [List.nodup_cons] at hnd
    obtain ⟨hj, hrest⟩ := hnd
    simp only [List.map_cons]
    by_cases hij : j = i
    · subst hij
      rw [filt_stop_self, ih hrest, if_neg hj, if_pos (List.mem_cons_self _ _)]
    · rw [filt_stop_ne hij, ih hrest]
      have hmc : (i ∈ j :: rest) ↔ i ∈ rest := by
        constructor
        · intro hmem
          rcases List.mem_cons.mp hmem with hmem | hmem
          · exact absurd hmem.symm hij
          · exact hmem
        · exact fun hmem => List.mem_cons_of_mem _ hmem
      rw [if_congr hmc rfl rfl]

/-! ## Theorems: credential store and refresh loop -/

/-- C4: `set_if_newer` stores the candidate iff no key is loaded, or the
incumbent is non-static (`expiresAt ≠ 0`) and the candidate is static
(`expiresAt = 0`) or has a strictly later `expiresAt`; when it stores, the
store holds the candidate; a static incumbent is never displaced. -/
theorem set_if_newer_spec (incumbent : Option OAuthKey) (key : OAuthKey) :
    ((set_if_newer incumbent key).2 = true ↔
      incumbent = none ∨
        ∃ old, incumbent = some old ∧ old.expiresAt ≠ 0 ∧
          (key.expiresAt = 0 ∨ old.expiresAt < key.expiresAt)) ∧
    ((set_if_newer incumbent key).2 = true →
      (set_if_newer incumbent key).1 = some key) ∧
    (∀ old, incumbent = some old → old.expiresAt = 0 →
      set_if_newer incumbent key = (some old, false)) := by
  obtain _ | old := incumbent
  · simp [set_if_newer]
  · by_cases h0 : old.expiresAt = 0
    · simp [set_if_newer, h0]
    · by_cases hc : key.expiresAt = 0 ∨ old.expiresAt < key.expiresAt
      · simp [set_if_newer, h0, hc]
      · simp [set_if_newer, h0, hc]

/-- Witness for `set_if_newer_spec`: a static incumbent survives a candidate
with a later expiry. -/
theorem set_if_newer_spec_witness :
    set_if_newer (some ⟨"a", "r", 0⟩) ⟨"b", "r", 99⟩ = (some ⟨"a", "r", 0⟩, false) :=
  (set_if_newer_spec (some ⟨"a", "r", 0⟩) ⟨"b", "r", 99⟩).2.2 ⟨"a", "r", 0⟩ rfl rfl

/-- C6 counterexample: entering the iteration with 4 accumulated failures, the
5th consecutive refresh failure does NOT clear the key (the retry counter
moves to 5); only the 6th consecutive failure clears it and resets the
counter. -/
theorem refresh_loop_fifth_failure_does_not_clear :
    (refresh_loop_iter default_buffer_ms failEnv 4).2.1 = false ∧
    (refresh_loop_iter default_buffer_ms failEnv 4).1 = 5 ∧
    (refresh_loop_iter default_buffer_ms failEnv 5).2.1 = true ∧
    (refresh_loop_iter default_buffer_ms failEnv 5).1 = 0 :=
  ⟨rfl, rfl, rfl, rfl⟩

/-- C6 (amended): on a failed refresh attempt the key is cleared and the
retry counter reset exactly when the incremented counter exceeds
`max_retries = 5` (i.e. on the 6th consecutive failure); otherwise the
counter just increments.  Whenever the resulting retry counter is positive,
the sleep before the next attempt is capped by
`min(60 s, 2 ^ retry × 1 s)` (in ms). -/
theorem refresh_loop_iter_spec (bufferMs : Int) (env : RefreshEnv)
    (retryCount : Nat) :
    (env.keyBefore.isSome = true → env.needsRefresh = true →
      env.refreshSuccess = false →
      (retryCount + 1 > max_retries →
        (refresh_loop_iter bufferMs env retryCount).1 = 0 ∧
        (refresh_loop_iter bufferMs env retryCount).2.1 = true) ∧
      (retryCount + 1 ≤ max_retries →
        (refresh_loop_iter bufferMs env retryCount).1 = retryCount + 1 ∧
        (refresh_loop_iter bufferMs env retryCount).2.1 = false)) ∧
    (0 < (refresh_loop_iter bufferMs env retryCount).1 →
      (refresh_loop_iter bufferMs env retryCount).2.2 ≤
        min 60000 (1000 * (2 : Int) ^ (refresh_loop_iter bufferMs env retryCount).1)) := by
  constructor
  · intro h1 h2 h3
    constructor
    · intro hgt
      simp [refresh_loop_iter, h1, h2, h3, hgt]
    · intro hle
      have hno : ¬ (retryCount + 1 > max_retries) := by omega
      simp [refresh_loop_iter, h1, h2, h3, hno]
  · intro hpos
    simp only [refresh_loop_iter] at hpos ⊢
    split_ifs at hpos ⊢ <;> simp_all

/-- Witness for `refresh_loop_iter_spec`: first failure moves the counter to
1, does not clear the key, and the sleep is capped by 2 s. -/
theorem refresh_loop_iter_spec_witness :
    (refresh_loop_iter default_buffer_ms failEnv 0).1 = 1 ∧
    (refresh_loop_iter default_buffer_ms failEnv 0).2.1 = false ∧
    (refresh_loop_iter default_buffer_ms failEnv 0).2.2 ≤
      min 60000 (1000 * (2 : Int) ^ (refresh_loop_iter default_buffer_ms failEnv 0).1) := by
  have h := refresh_loop_iter_spec default_buffer_ms failEnv 0
  refine ⟨(h.1 rfl rfl rfl).2 (by decide) |>.1, (h.1 rfl rfl rfl).2 (by decide) |>.2, ?_⟩
  exact h.2 (by have := (h.1 rfl rfl rfl).2 (by decide) |>.1; omega)

/-! ## Theorems: quota ledger -/

/-- Helper: the computed reset instant is strictly after the instant it was
computed from (given a wall clock with a valid second-of-day). -/
theorem get_next_monday_midnight_lt (t : PyDateTime) (h : t.secsOfDay < 86400) :
    t.toSecs < (get_next_monday_midnight t).toSecs := by
  simp only [get_next_monday_midnight, PyDateTime.toSecs]
  split_ifs <;> omega

/-- C7: `mark_native_exhausted` sets `reset_at` to the next Monday 00:00;
invoked on a Monday the reset day is exactly seven days later (and at
exactly Monday 00:00:00 the instant is exactly seven days later), and
`reset_at` is always strictly later than `exhausted_at` (assuming the two
`datetime.now()` calls the source makes are monotone). -/
theorem mark_native_exhausted_reset_spec (now nowReset : PyDateTime)
    (hsec : nowReset.secsOfDay < 86400) (hmono : now.toSecs ≤ nowReset.toSecs) :
    ((nowReset.days % 7 = 0 →
      (get_next_monday_midnight nowReset).days = nowReset.days + 7 ∧
      (get_next_monday_midnight nowReset).secsOfDay = 0) ∧
    (nowReset.days % 7 = 0 → nowReset.secsOfDay = 0 →
      (get_next_monday_midnight nowReset).toSecs = nowReset.toSecs + 7 * 86400)) ∧
    (∀ f st msg,
      (mark_native_exhausted f st now nowReset msg).1.reset_at =
        some (get_next_monday_midnight nowReset) ∧
      (mark_native_exhausted f st now nowReset msg).1.exhausted_at = some now ∧
      (mark_native_exhausted f st now nowReset msg).1.quota_exhausted = true ∧
      now.toSecs < (get_next_monday_midnight nowReset).toSecs) := by
  refine ⟨⟨?_, ?_⟩, ?_⟩
  · intro hmon
    simp only [get_next_monday_midnight]
    constructor <;> simp [hmon]
  · intro hmon hz
    simp only [get_next_monday_midnight, PyDateTime.toSecs]
    simp [hmon, hz]
    ring
  · intro f st msg
    refine ⟨rfl, rfl, rfl, ?_⟩
    calc now.toSecs ≤ nowReset.toSecs := hmono
      _ < (get_next_monday_midnight nowReset).toSecs :=
        get_next_monday_midnight_lt nowReset hsec

/-- Witness for `mark_native_exhausted_reset_spec` at Monday 00:00:00: the
reset instant is day 7, midnight. -/
theorem mark_native_exhausted_reset_spec_witness :
    (mark_native_exhausted "quota_state.json" default_native_state
        ⟨0, 0⟩ ⟨0, 0⟩ none).1.reset_at = some ⟨7, 0⟩ := by
  have h := (mark_native_exhausted_reset_spec ⟨0, 0⟩ ⟨0, 0⟩ (by norm_num)
    (by norm_num)).2 "quota_state.json" default_native_state none
  rw [h.1]
  rfl

/-- C5 counterexample: `mark_native_exhausted` persists the quota state with
a direct in-place write of the quota file — not via a temporary file renamed
over it. -/
theorem quota_save_not_temp_rename :
    ¬ usesTempRename "quota_state.json"
        (mark_native_exhausted "quota_state.json" default_native_state
          ⟨0, 0⟩ ⟨0, 0⟩ none).2 := by
  intro h
  have := h.1 (FsOp.writeFile "quota_state.json")
    (by simp [mark_native_exhausted, quota_save_trace])
  exact this rfl

/-- C5 (amended): every quota mutator (`mark_native_exhausted`,
`record_request`, `reset_native`, and the weekly auto-reset when it fires)
persists synchronously with a single direct write of the quota file — no
temp-file-and-rename — while the credential `save_to_file` does write a
temporary file and atomically renames it over the config path. -/
theorem persistence_traces_spec :
    (∀ f st now nowReset msg,
      (mark_native_exhausted f st now nowReset msg).2 = [FsOp.writeFile f]) ∧
    (∀ f st now, (record_request f st now).2 = [FsOp.writeFile f]) ∧
    (∀ f, (reset_native f).2 = [FsOp.writeFile f]) ∧
    (∀ f st now,
      ((check_auto_reset f st now).1 = default_native_state ∧
        (check_auto_reset f st now).2 = [FsOp.writeFile f]) ∨
      ((check_auto_reset f st now).1 = st ∧ (check_auto_reset f st now).2 = [])) ∧
    (∀ cfg, usesTempRename cfg (key_save_trace cfg)) := by
  have hne : ∀ cfg : String, cfg ++ ".tmp" ≠ cfg := by
    intro cfg h
    have h1 := congrArg String.length h
    rw [String.length_append] at h1
    have h2 : (".tmp" : String).length = 4 := rfl
    omega
  refine ⟨fun _ _ _ _ _ => rfl, fun _ _ _ => rfl, fun _ => rfl, ?_, ?_⟩
  · intro f st now
    simp only [check_auto_reset]
    split_ifs with hex
    · cases hr : st.reset_at with
      | none => exact Or.inr ⟨rfl, rfl⟩
      | some r =>
        by_cases hle : r.toSecs ≤ now.toSecs
        · exact Or.inl ⟨by simp [hle, reset_native], by simp [hle, reset_native, quota_save_trace]⟩
        · exact Or.inr ⟨by simp [hle], by simp [hle]⟩
    · exact Or.inr ⟨rfl, rfl⟩
  · intro cfg
    refine ⟨?_, cfg ++ ".tmp", hne cfg, by simp [key_save_trace], by simp [key_save_trace]⟩
    intro op hop
    fin_cases hop <;> simp [hne cfg]

/-- C8: the error classifier returns true iff the status is 429, or the
lowercased body contains one of the eleven English quota keywords, or the
body contains one of the nine Chinese quota keywords. -/
theorem is_quota_exhausted_error_spec (status : Int) (body : String) :
    is_quota_exhausted_error status body = true ↔
      status = 429 ∨
      (∃ k ∈ (["rate limit", "rate_limit", "ratelimit", "quota exceeded",
               "quota_exceeded", "too many requests", "request limit",
               "usage limit", "daily limit", "weekly limit",
               "monthly limit"] : List String),
        k.toList <:+: (pyLower body).toList) ∨
      (∃ k ∈ chinese_keywords, k.toList <:+: body.toList) := by
  have hEng : (english_keywords.any (fun k => strContainsB (pyLower body) k) = true) ↔
      (∃ k ∈ (["rate limit", "rate_limit", "ratelimit", "quota exceeded",
               "quota_exceeded", "too many requests", "request limit",
               "usage limit", "daily limit", "weekly limit",
               "monthly limit"] : List String),
        k.toList <:+: (pyLower body).toList) := by
    simp only [List.any_eq_true, strContainsB, decide_eq_true_eq]
    constructor
    · rintro ⟨k, hk, h⟩
      exact ⟨k, by fin_cases hk <;> decide, h⟩
    · rintro ⟨k, hk, h⟩
      exact ⟨k, by fin_cases hk <;> decide, h⟩
  have hChi : (chinese_keywords.any (fun k => strContainsB body k) = true) ↔
      (∃ k ∈ chinese_keywords, k.toList <:+: body.toList) := by
    simp only [List.any_eq_true, strContainsB, decide_eq_true_eq]
  by_cases h429 : status = 429
  · simp [is_quota_exhausted_error, h429]
  · simp only [is_quota_exhausted_error, if_neg h429]
    rw [iff_comm, or_iff_right h429, ← hEng, ← hChi]
    cases hc1 : english_keywords.any (fun k => strContainsB (pyLower body) k) <;>
      cases hc2 : chinese_keywords.any (fun k => strContainsB body k) <;>
        simp [hc1, hc2]

/-! ## Theorems: tool-call id normalisation -/

/-- Helper: a string with `pre` prepended starts with `pre`. -/
theorem strStartsWith_append_self (pre x : String) :
    strStartsWith (pre ++ x) pre = true := by
  simp [strStartsWith, String.toList, List.isPrefixOf_iff_prefix]

/-- Helper: prepending `"toolu_"` never yields the empty string. -/
theorem toolu_append_ne_empty (x : String) : "toolu_" ++ x ≠ "" := by
  intro h
  have h1 := congrArg String.length h
  rw [String.length_append] at h1
  have h2 : ("toolu_" : String).length = 6 := rfl
  simp [h2] at h1

/-- C9: `normalize_tool_call_id` is idempotent, its result always starts
with `toolu_`, and an empty (missing) id maps to `toolu_` followed by the
24 lowercase hex digits drawn from `uuid4().hex`. -/
theorem normalize_tool_call_id_spec (f g x : String)
    (hlen : f.length = 24) (hhex : f.toList.all isLowerHexDigit = true) :
    normalize_tool_call_id g (normalize_tool_call_id f x) =
      normalize_tool_call_id f x ∧
    strStartsWith (normalize_tool_call_id f x) "toolu_" = true ∧
    (x = "" → ∃ h24, normalize_tool_call_id f x = "toolu_" ++ h24 ∧
      h24.length = 24 ∧ h24.toList.all isLowerHexDigit = true) := by
  have hfix : ∀ y, y ≠ "" → strStartsWith y "toolu_" = true →
      normalize_tool_call_id g y = y := by
    intro y hy hs
    simp [normalize_tool_call_id, hy, hs]
  have hval : (x = "" ∧ normalize_tool_call_id f x = "toolu_" ++ f) ∨
      (x ≠ "" ∧ normalize_tool_call_id f x = x ∧ strStartsWith x "toolu_" = true) ∨
      (x ≠ "" ∧ normalize_tool_call_id f x = "toolu_" ++ x) := by
    by_cases hx : x = ""
    · exact Or.inl ⟨hx, by simp [normalize_tool_call_id, hx]⟩
    · cases hs : strStartsWith x "toolu_"
      · exact Or.inr (Or.inr ⟨hx, by simp [normalize_tool_call_id, hx, hs]⟩)
      · exact Or.inr (Or.inl ⟨hx, by simp [normalize_tool_call_id, hx, hs], rfl⟩)
  rcases hval with ⟨hx, h⟩ | ⟨hx, h, hs⟩ | ⟨hx, h⟩
  · refine ⟨?_, ?_, fun _ => ⟨f, h, hlen, hhex⟩⟩
    · rw [h]
      exact hfix _ (toolu_append_ne_empty f) (strStartsWith_append_self "toolu_" f)
    · rw [h]
      exact strStartsWith_append_self "toolu_" f
  · refine ⟨?_, ?_, fun h0 => absurd h0 hx⟩
    · rw [h]
      exact hfix x hx hs
    · rw [h]
      exact hs
  · refine ⟨?_, ?_, fun h0 => absurd h0 hx⟩
    · rw [h]
      exact hfix _ (toolu_append_ne_empty x) (strStartsWith_append_self "toolu_" x)
    · rw [h]
      exact strStartsWith_append_self "toolu_" x

/-- Witness for `normalize_tool_call_id_spec`: normalising the already
normalised id of `"call_1"` is a no-op and the fresh-id branch yields
`toolu_` plus 24 hex digits. -/
theorem normalize_tool_call_id_spec_witness :
    normalize_tool_call_id "0123456789abcdef01234567"
        (normalize_tool_call_id "0123456789abcdef01234567" "call_1") =
      normalize_tool_call_id "0123456789abcdef01234567" "call_1" ∧
    (∃ h24, normalize_tool_call_id "0123456789abcdef01234567" "" =
      "toolu_" ++ h24 ∧ h24.length = 24 ∧
      h24.toList.all isLowerHexDigit = true) := by
  have h := normalize_tool_call_id_spec "0123456789abcdef01234567"
    "0123456789abcdef01234567" "call_1" (by decide) (by decide)
  have h0 := normalize_tool_call_id_spec "0123456789abcdef01234567"
    "0123456789abcdef01234567" "" (by decide) (by decide)
  exact ⟨h.1, h0.2.2 rfl⟩

/-! ## Theorems: user-message transcoding -/

/-- Helper: `denormalize_tool_call_id` is the identity. -/
theorem denormalize_tool_call_id_id (tid p : String) :
    denormalize_tool_call_id tid p = tid := by
  unfold denormalize_tool_call_id
  split_ifs <;> rfl

/-- Helper: the converted tool_call_id equals the original, with or without
a provider. -/
theorem converted_id_eq (provider : Option String) (tid : String) :
    (match provider with
      | some p => denormalize_tool_call_id tid p
      | none => tid) = tid := by
  cases provider <;> simp [denormalize_tool_call_id_id]

/-- Helper: processing `bs ++ tool_result :: rest` emits the conversion of
`bs` (under the incoming pending buffer), then the tool message, then the
conversion of `rest` from an empty buffer. -/
theorem aux_toolResult_split (provider : Option String) (tid : String)
    (c : ToolResultContent) (rest : List UserBlock) :
    ∀ (bs : List UserBlock) (pending : List LegacyPart),
    convert_user_blocks_aux provider pending (bs ++ .toolResult tid c :: rest) =
      convert_user_blocks_aux provider pending bs ++
        .tool tid (toolResultContentString c) ::
          convert_user_blocks_aux provider [] rest := by
  intro bs
  induction bs with
  | nil =>
    intro pending
    simp [convert_user_blocks_aux, user_block_step, converted_id_eq]
  | cons b bs ih =>
    intro pending
    simp only [List.cons_append, convert_user_blocks_aux, List.append_eq]
    rw [ih]
    simp [List.append_assoc]

/-- Helper: a tool_result-free block list only fills the pending buffer,
which the trailing flush turns into at most one user message. -/
theorem aux_no_toolResult (provider : Option String) :
    ∀ (bs : List UserBlock) (pending : List LegacyPart),
    (∀ b ∈ bs, b.isToolResult = false) →
    convert_user_blocks_aux provider pending bs =
      flush_user_content (pending ++ bufferedParts bs) := by
  intro bs
  induction bs with
  | nil =>
    intro pending _
    simp [convert_user_blocks_aux, bufferedParts]
  | cons b bs ih =>
    intro pending hb
    have hbs : ∀ b ∈ bs, b.isToolResult = false :=
      fun x hx => hb x (List.mem_cons_of_mem _ hx)
    cases b with
    | text s =>
      simp [convert_user_blocks_aux, user_block_step, bufferedParts,
        ih _ hbs, List.append_assoc]
    | image st mt d u =>
      simp [convert_user_blocks_aux, user_block_step, bufferedParts,
        ih _ hbs, List.append_assoc]
    | document st mt =>
      by_cases hst : st = "base64" <;>
        simp [convert_user_blocks_aux, user_block_step, bufferedParts, hst,
          ih _ hbs, List.append_assoc]
    | toolResult tid c =>
      have := hb (.toolResult tid c) (List.mem_cons_self _ _)
      simp [UserBlock.isToolResult] at this
    | other =>
      simp [convert_user_blocks_aux, user_block_step, bufferedParts, ih _ hbs]

/-- C3: the user branch of `convert_anthropic_messages` processes content
blocks in source order: (i) splitting at any tool_result block, the output
is the conversion of the prefix (pending content flushed first), then the
`role: tool` message carrying that block's id and stringified content, then
the conversion of the remaining blocks; (ii) a tool_result-free block list
only buffers its text/image/document parts into at most one pending user
message; (iii) in particular content
`[text "a", tool_result toolu_1, text "b", tool_result toolu_2]` transcodes
to exactly `[user "a", tool(toolu_1), user "b", tool(toolu_2)]`. -/
theorem convert_user_blocks_spec (provider : Option String) :
    (∀ bs tid c rest,
      convert_user_blocks provider (bs ++ .toolResult tid c :: rest) =
        convert_user_blocks provider bs ++
          .tool tid (toolResultContentString c) ::
            convert_user_blocks provider rest) ∧
    (∀ bs, (∀ b ∈ bs, b.isToolResult = false) →
      convert_user_blocks provider bs = flush_user_content (bufferedParts bs)) ∧
    (convert_user_blocks provider
        [.text "a", .toolResult "toolu_1" (.str "r1"),
         .text "b", .toolResult "toolu_2" (.str "r2")] =
      [.user (.str "a"), .tool "toolu_1" "r1",
       .user (.str "b"), .tool "toolu_2" "r2"]) := by
  refine ⟨?_, ?_, ?_⟩
  · intro bs tid c rest
    exact aux_toolResult_split provider tid c rest bs []
  · intro bs hb
    simpa using aux_no_toolResult provider bs [] hb
  · simp [convert_user_blocks, convert_user_blocks_aux, user_block_step,
      converted_id_eq, flush_user_content, toolResultContentString]

/-- Witness for `convert_user_blocks_spec`: a text plus base64 image buffer
into a single array-content user message. -/
theorem convert_user_blocks_spec_witness :
    convert_user_blocks (some "codebuddy")
        [.text "x", .image "base64" "image/png" "QUJD" ""] =
      flush_user_content
        (bufferedParts [.text "x", .image "base64" "image/png" "QUJD" ""]) :=
  (convert_user_blocks_spec (some "codebuddy")).2.1 _ (by decide)

/-! ## Theorems: quota state file loading -/

/-- C10 counterexample: a quota file holding valid JSON that is not an
object — here the empty array — makes `_load_state` (and hence the
`QuotaManager` constructor, which only catches `JSONDecodeError` and
`IOError`) raise an uncaught `TypeError` instead of falling back to the
default state. -/
theorem load_state_array_raises :
    load_state (.parsed (.arr [])) =
      .error "TypeError: value does not support item assignment" := rfl

/-- C10 (amended): an absent, unreadable, or syntactically invalid quota
file yields the fresh default state; a parseable JSON **object** whose
`native_api` member is absent gets the whole default `native_api` record
installed, and one whose `native_api` member is an object gets exactly the
missing sub-fields filled in with their defaults while present sub-fields
(and all other top-level fields) are kept; but a parseable file that is not
a JSON object makes construction raise instead of falling back. -/
theorem load_state_spec :
    (load_state .absent = .ok default_state_json ∧
     load_state .unreadable = .ok default_state_json ∧
     load_state .badJson = .ok default_state_json) ∧
    (∀ kvs, objLookup kvs "native_api" = none →
      load_state (.parsed (.obj kvs)) =
        .ok (.obj (objSet kvs "native_api" (.obj defaultNative)))) ∧
    (∀ kvs navs, objLookup kvs "native_api" = some (.obj navs) →
      load_state (.parsed (.obj kvs)) =
        .ok (.obj (objSet kvs "native_api"
          (.obj (mergeNa navs defaultNative)))) ∧
      (∀ k v, objLookup navs k = some v →
        objLookup (mergeNa navs defaultNative) k = some v) ∧
      (∀ k, objLookup navs k = none →
        objLookup (mergeNa navs defaultNative) k = objLookup defaultNative k)) ∧
    (∀ kvs v k, k ≠ "native_api" →
      objLookup (objSet kvs "native_api" v) k = objLookup kvs k) ∧
    (∀ kvs v, objLookup (objSet kvs "native_api" v) "native_api" = some v) := by
  refine ⟨⟨rfl, rfl, rfl⟩, ?_, ?_, ?_, ?_⟩
  · intro kvs hnone
    have hany : kvs.any (fun p => p.1 == "native_api") = false := by
      cases hb : kvs.any (fun p => p.1 == "native_api") with
      | false => rfl
      | true =>
        have := (any_iff_lookup kvs "native_api").1 hb
        simp [hnone] at this
    have hc : pyContains (.obj kvs) "native_api" = .ok false := by
      simp [pyContains, hany]
    simp [load_state, hc, except_bind_ok, pySetItem]
  · intro kvs navs hsome
    have hany : kvs.any (fun p => p.1 == "native_api") = true :=
      (any_iff_lookup kvs "native_api").2 (by simp [hsome])
    have hc : pyContains (.obj kvs) "native_api" = .ok true := by
      simp [pyContains, hany]
    have hg : pyGetItem (.obj kvs) "native_api" = .ok (.obj navs) := by
      simp [pyGetItem, hsome]
    refine ⟨?_, fun k v h => mergeNa_lookup_some _ _ _ _ h,
      fun k h => mergeNa_lookup_none _ _ _ h⟩
    simp only [load_state, hc, hg, except_bind_ok, Bool.not_true,
      Bool.false_eq_true, if_false]
    rw [fold_merge]
    rfl
  · intro kvs v k hk
    exact objSet_lookup_ne kvs "native_api" v k (fun h => hk h.symm)
  · intro kvs v
    exact objSet_lookup_self kvs "native_api" v

/-- Witness for `load_state_spec`: a file whose `native_api` has only
`quota_exhausted` keeps that field and gets the five missing fields
defaulted, while `version` is preserved. -/
theorem load_state_spec_witness :
    (load_state (.parsed (.obj
        [("native_api", .obj [("quota_exhausted", .bool true)]),
         ("version", .num 2)]))).isOk = true ∧
    objLookup (mergeNa [("quota_exhausted", .bool true)] defaultNative)
        "quota_exhausted" = some (.bool true) ∧
    objLookup (mergeNa [("quota_exhausted", .bool true)] defaultNative)
        "reset_at" = some .null := by
  have h := load_state_spec.2.2.1
    [("native_api", .obj [("quota_exhausted", .bool true)]), ("version", .num 2)]
    [("quota_exhausted", .bool true)] (by rfl)
  refine ⟨by rw [h.1]; rfl, h.2.1 "quota_exhausted" (.bool true) (by rfl),
    h.2.2 "reset_at" (by rfl)⟩

/-! ## Theorems: streaming transcoder -/

/-- C1: for every upstream frame sequence the streaming transcoder consumes
to completion without transport error, the emitted event sequence begins
with `message_start`, ends with `message_delta` followed by `message_stop`,
everything in between is a `content_block_*` event, and for every block
index `i` the events at `i` are exactly one `content_block_start`, then
zero or more `content_block_delta`s, then exactly one `content_block_stop`,
all before `message_delta`; in particular no delta at an index precedes
that index's start. -/
theorem handle_stream_passthrough_spec (fresh : String)
    (frames : List RawFrame) :
    ∃ body sr ot,
      handle_stream_passthrough fresh frames =
        SseEvent.messageStart ::
          (body ++ [SseEvent.messageDelta sr ot, SseEvent.messageStop]) ∧
      (∀ e ∈ body, (∃ i k, e = SseEvent.blockStart i k) ∨
        (∃ i p, e = SseEvent.blockDelta i p) ∨
        (∃ i, e = SseEvent.blockStop i)) ∧
      (∀ i, filt i body = [] ∨
        ∃ k ds, filt i body =
            SseEvent.blockStart i k :: (ds ++ [SseEvent.blockStop i]) ∧
          ∀ e ∈ ds, ∃ p, e = SseEvent.blockDelta i p) := by
  have hInv := consumeFrames_inv fresh frames initStreamState [] streamInv_init
  rw [List.nil_append] at hInv
  refine ⟨(consumeFrames fresh initStreamState frames).2 ++
      closeEvents (consumeFrames fresh initStreamState frames).1,
    streamStopReason (consumeFrames fresh initStreamState frames).1,
    streamOutputTokens (consumeFrames fresh initStreamState frames).1,
    ?_, ?_, ?_⟩
  · rfl
  · intro e he
    rcases List.mem_append.mp he with he | he
    · rcases hInv.loopOnly e he with h | h
      · exact Or.inl h
      · exact Or.inr (Or.inl h)
    · rw [closeEvents_eq] at he
      obtain ⟨i, _, hi⟩ := List.mem_map.mp he
      exact Or.inr (Or.inr ⟨i, hi.symm⟩)
  · intro i
    rw [filt_append, closeEvents_eq, filt_map_stop i _ hInv.nodup]
    by_cases hmem : i ∈ owners (consumeFrames fresh initStreamState frames).1
    · rw [if_pos hmem]
      have hne := (hInv.ownIff i).mpr hmem
      rcases hInv.shape i with hs | ⟨k, ds, hds, hall⟩
      · exact absurd hs hne
      · exact Or.inr ⟨k, ds, by rw [hds, List.cons_append], hall⟩
    · rw [if_neg hmem, List.append_nil]
      left
      by_contra hne
      exact hmem ((hInv.ownIff i).mp hne)

/-- C2 counterexample: on the NON-streaming path there is no multi-object
detection — a tool call whose arguments arrive as the two complete JSON
objects `\x7b"a": 1\x7d` and `\x7b"b": 2\x7d` accumulates their
concatenation: the second fragment is not dropped, contradicting the claim
that the suppression happens on both response paths. -/
theorem ns_multi_object_not_dropped :
    (ns_collect "0123456789abcdef01234567" initNsState
        [.chunk ⟨"", "", [⟨0, "call_1", "f", "\x7b\"a\": 1\x7d"⟩], "", none⟩,
         .chunk ⟨"", "", [⟨0, "", "", "\x7b\"b\": 2\x7d"⟩], "", none⟩,
         .done]).toolCalls =
      [(0, ⟨"toolu_call_1", "f", "\x7b\"a\": 1\x7d\x7b\"b\": 2\x7d"⟩)] ∧
    "\x7b\"a\": 1\x7d\x7b\"b\": 2\x7d" ≠ "\x7b\"a\": 1\x7d" :=
  ⟨rfl, by decide⟩

/-- C2 (amended): on the STREAMING path, when a slot's accumulated
arguments already end (after `rstrip`) with a closing brace and a new
fragment starts (after `lstrip`) with an opening brace, the slot is marked
completed with its arguments unchanged; a completed slot never accumulates
again and never has another `input_json_delta` emitted; and the two-object
scenario produces exactly one tool_use block whose only `input_json_delta`
carries the first object. -/
theorem stream_multi_object_detection_spec :
    (∀ fresh tc slot, tc.arguments ≠ "" →
      rstripEndsWith slot.arguments '\x7d' = true →
      lstripStartsWith tc.arguments '\x7b' = true →
      (updSlotFields fresh tc slot).completed = true ∧
      (updSlotFields fresh tc slot).arguments = slot.arguments) ∧
    (∀ fresh tc slot, slot.completed = true →
      (updSlotFields fresh tc slot).arguments = slot.arguments ∧
      (updSlotFields fresh tc slot).completed = true) ∧
    (∀ fresh s tc,
      (updSlotFields fresh tc
        ((slotLookup s.toolCalls tc.index).getD initToolSlot)).started = true →
      (updSlotFields fresh tc
        ((slotLookup s.toolCalls tc.index).getD initToolSlot)).completed = true →
      (processToolDelta fresh s tc).2 = []) ∧
    (handle_stream_passthrough "0123456789abcdef01234567"
        [.chunk ⟨"", "", [⟨0, "call_1", "f", "\x7b\"a\": 1\x7d"⟩], "", none⟩,
         .chunk ⟨"", "", [⟨0, "", "", "\x7b\"b\": 2\x7d"⟩], "", none⟩,
         .done] =
      [SseEvent.messageStart,
       SseEvent.blockStart 0 (.toolUse "toolu_call_1" "f"),
       SseEvent.blockDelta 0 (.inputJsonDelta "\x7b\"a\": 1\x7d"),
       SseEvent.blockStop 0,
       SseEvent.messageDelta "tool_use" 0,
       SseEvent.messageStop]) := by
  refine ⟨?_, ?_, ?_, ?_⟩
  · intro fresh tc slot ha hr hl
    simp only [updSlotFields]
    split_ifs <;> simp_all
  · intro fresh tc slot hc
    simp only [updSlotFields]
    split_ifs <;> simp_all
  · intro fresh s tc hst hcomp
    simp only [processToolDelta]
    rw [if_neg (fun hcond => by rw [hst] at hcond; exact absurd hcond.2.2 (by simp))]
    rw [if_neg (fun hd => by rw [hcomp] at hd; exact absurd hd.2.2 (by simp))]
  · rfl

/-- Witness for `stream_multi_object_detection_spec`: the detection fires
on the concrete second fragment and leaves the first object in place. -/
theorem stream_multi_object_detection_spec_witness :
    (updSlotFields "0123456789abcdef01234567" ⟨0, "", "", "\x7b\"b\": 2\x7d"⟩
      ⟨"toolu_call_1", "f", "\x7b\"a\": 1\x7d", true, 0, false⟩).completed = true ∧
    (updSlotFields "0123456789abcdef01234567" ⟨0, "", "", "\x7b\"b\": 2\x7d"⟩
      ⟨"toolu_call_1", "f", "\x7b\"a\": 1\x7d", true, 0, false⟩).arguments =
      "\x7b\"a\": 1\x7d" :=
  stream_multi_object_detection_spec.1 "0123456789abcdef01234567"
    ⟨0, "", "", "\x7b\"b\": 2\x7d"⟩
    ⟨"toolu_call_1", "f", "\x7b\"a\": 1\x7d", true, 0, false⟩
    (by decide) (by decide) (by decide)

end CgtoolsWeb
